import Mathlib

/-!
# Masterlist synchronisation (`src/backend/network.cpp`)

A shallow embedding of `RunCommand`, `GetRevision` and `UpdateMasterlist`.

* A `std::string` is a list of its `char` elements (`Str`); positions are list
  indices, and `size_t` arithmetic is carried out modulo `2 ^ 64`.
* Everything outside the program (child processes, the YAML loader, the file
  system, the Git library) is a deterministic `World` that answers each call
  from the list of calls made so far; the calls a run makes are collected in
  its `trace`.
* Log statements are left out.
-/

namespace boss

/-- A `std::string`, as the list of its `char` elements. -/
abbrev Str := List Char

/-! ## `size_t` and the `std::string` members used by the program -/

/-- Number of values of `size_t`. -/
def SIZE_RANGE : Nat := 2 ^ 64

/-- The constant `std::string::npos`, the largest `size_t`. -/
def npos : Nat := SIZE_RANGE - 1

/-- Addition of two `size_t` values. -/
def wadd (a b : Nat) : Nat := (a + b) % SIZE_RANGE

/-- Subtraction of two `size_t` values. -/
def wsub (a b : Nat) : Nat := (a + SIZE_RANGE - b % SIZE_RANGE) % SIZE_RANGE

/-- Lowest index `i + j` at which `pat` occurs in `l`, where `l` is the part of the
string that starts at index `i`. -/
def findFrom (pat : Str) : Str → Nat → Option Nat
  | [], i => if pat.isPrefixOf [] then some i else none
  | c :: cs, i => if pat.isPrefixOf (c :: cs) then some i else findFrom pat cs (i + 1)

/-- Highest index `i + j` at which `pat` occurs in `l`, where `l` is the part of the
string that starts at index `i`. -/
def rfindFrom (pat : Str) : Str → Nat → Option Nat
  | [], i => if pat.isPrefixOf [] then some i else none
  | c :: cs, i =>
    match rfindFrom pat cs (i + 1) with
    | some p => some p
    | none => if pat.isPrefixOf (c :: cs) then some i else none

/-- The member `s.find(pat, pos)`: the lowest index not below `pos` at which `pat`
occurs, `npos` when there is none (also when `pos` is past the end).  The overload
for one character is the case of a pattern of length one. -/
def find (s pat : Str) (pos : Nat) : Nat :=
  if s.length < pos then npos else (findFrom pat (s.drop pos) pos).getD npos

/-- The member `s.rfind(pat)`: the highest index at which `pat` occurs, `npos` when
there is none. -/
def rfind (s pat : Str) : Nat :=
  (rfindFrom pat s 0).getD npos

/-- The member `s.substr(pos, count)`: `none` stands for `std::out_of_range`, thrown
when `pos` is past the end. -/
def substr (s : Str) (pos count : Nat) : Option Str :=
  if s.length < pos then none else some ((s.drop pos).take count)

/-! ## `GetRevision` -/

/-- The function `GetRevision` (network.cpp, lines 127-145); `none` stands for the
`std::out_of_range` that `substr` throws. -/
def GetRevision (buffer : Str) : Option Str :=
  let pos1 := rfind buffer "Revision: ".toList
  if pos1 = npos then
    some []
  else
    let pos2 := find buffer ['\n'] pos1
    match substr buffer (wadd pos1 10) (wsub (wsub pos2 pos1) 10) with
    | none => none
    | some revision =>
      let pos1 := find buffer "Last Changed Date: ".toList pos2
      let pos2 := find buffer [' '] (wadd pos1 19)
      match substr buffer (wadd pos1 19) (wsub (wsub pos2 pos1) 19) with
      | none => none
      | some date => some (revision ++ " (".toList ++ date ++ ")".toList)

/-! ## The program's surroundings -/

/-- One call that leaves the program: a child process started by `RunCommand`, the
YAML loader, the file system, or a function of the Git library. -/
inductive Call where
  | RunCommand (command : Str)
  | LoadFile (path : Str)
  | fs_exists (path : Str)
  | git_repository_open (path : Str)
  | git_remote_load (name : Str)
  | git_remote_url
  | git_remote_set_url (url : Str)
  | git_repository_init (path : Str) (bare : Bool)
  | git_remote_create (name url : Str)
  | git_repository_config
  | git_config_set_bool (key : Str) (value : Bool)
  | ofstream_write (path content : Str)
  | git_remote_free
  | git_repository_free
  deriving DecidableEq, Repr

/-- What the operating system reports for one child process, in the order in which
`RunCommand` asks: `CreatePipe`, `CreateProcess`, `GetExitCodeProcess`, `ReadFile`,
and at last the exit code with the text waiting in the pipe. -/
inductive ProcessResult where
  | pipeFailed
  | createFailed
  | exitCodeFailed
  | readFailed
  | finished (exitCode : Nat) (pipe : Str)
  deriving DecidableEq, Repr

/-- Everything outside the program.  Each answer may depend on the calls made so far
(for instance the state of the working copy after the commands already run). -/
structure World where
  /-- The global `g_path_svn`, as `g_path_svn.string()`. -/
  g_path_svn : Str
  /-- The member `parent_path()` of a file-system path. -/
  parent_path : Str → Str
  /-- The operator `/` of file-system paths. -/
  path_append : Str → Str → Str
  /-- The child process started for a command line. -/
  process : List Call → Str → ProcessResult
  /-- The call `YAML::LoadFile(path)`: `some what` is a `YAML::Exception` with that
  message, `none` a document that parses. -/
  LoadFile : List Call → Str → Option Str
  /-- The call `fs::exists(path)`. -/
  fs_exists : List Call → Str → Bool
  /-- Address of the buffer that `git_remote_url(remote)` returns. -/
  git_remote_url : List Call → Nat
  /-- Address of the buffer that `game.URL().c_str()` returns. -/
  c_str : List Call → Nat

/-- The part of `Game` that `UpdateMasterlist` reads: `URL()` and
`MasterlistPath().string()`. -/
structure Game where
  URL : Str
  MasterlistPath : Str
  deriving DecidableEq, Repr

/-- Error codes of `boss::error` used in network.cpp. -/
inductive ErrorCode where
  | subversion_error
  deriving DecidableEq, Repr

/-- The exceptions that leave the functions of network.cpp. -/
inductive Exception where
  | error (code : ErrorCode) (what : Str)
  | out_of_range
  deriving DecidableEq, Repr

/-- How a call of `UpdateMasterlist` ends: a `return` statement, an exception, or
control flowing off the end of the function body, which for C++ is a return with no
value (undefined for a function that returns a `std::string`). -/
inductive Outcome where
  | returned (value : Str)
  | threw (e : Exception)
  | fellOffEnd
  deriving DecidableEq, Repr

/-- A run of `UpdateMasterlist`: how it ended (`none` when the fuel of `while (true)`
ran out first), the vector `parsingErrors` as the caller finds it, and the calls made
in order. -/
structure Run where
  outcome : Option Outcome
  parsingErrors : List Str
  trace : List Call
  deriving DecidableEq, Repr

/-! ## `RunCommand` -/

/-- The constant `BUFSIZE`. -/
def BUFSIZE : Nat := 4096

/-- The function `RunCommand` (network.cpp, lines 51-124): the exit code is compared
with zero and `output` is what one `ReadFile` of at most `BUFSIZE` characters gives. -/
def RunCommand (W : World) (hist : List Call) (command : Str) : Except Exception (Bool × Str) :=
  match W.process hist command with
  | .pipeFailed =>
    .error (.error .subversion_error "Could not create pipe for Subversion process.".toList)
  | .createFailed =>
    .error (.error .subversion_error "Could not create Subversion process.".toList)
  | .exitCodeFailed =>
    .error (.error .subversion_error "Could not get Subversion process exit code.".toList)
  | .readFailed =>
    .error (.error .subversion_error "Could not read Subversion process output.".toList)
  | .finished exitCode pipe => .ok (exitCode == 0, pipe.take BUFSIZE)

/-! ## Backend selection: `boost::iends_with` -/

/-- The comparison `boost::is_iequal` in the classic locale: equal after `toupper`. -/
def is_iequal (a b : Char) : Bool := a.toUpper == b.toUpper

/-- The backwards walk of `boost::algorithm::ends_with` over both ranges, given from
their last elements on. -/
def ends_with_iter : Str → Str → Bool
  | _, [] => true
  | [], _ :: _ => false
  | c :: cs, p :: ps => if is_iequal c p then ends_with_iter cs ps else false

/-- The predicate `boost::iends_with(Input, Test)`. -/
def iends_with (Input Test : Str) : Bool :=
  ends_with_iter Input.reverse Test.reverse

/-! ## `UpdateMasterlist`, Subversion branch -/

/-- Command line of line 156 and line 193: `svn info "<masterlist>"`. -/
def infoCommand (W : World) (game : Game) : Str :=
  W.g_path_svn ++ " info \"".toList ++ game.MasterlistPath ++ "\"".toList

/-- Command line of line 173: `svn co --depth empty <URL up to its last '/'>
"<folder>\."`; `none` stands for `std::out_of_range` from `substr`. -/
def checkoutCommand (W : World) (game : Game) : Option Str :=
  match substr game.URL 0 (rfind game.URL ['/']) with
  | none => none
  | some parent =>
    some (W.g_path_svn ++ " co --depth empty ".toList ++ parent ++ " \"".toList
      ++ W.parent_path game.MasterlistPath ++ "\\.\"".toList)

/-- Command line of line 182: `svn update "<masterlist>"`. -/
def updateCommand (W : World) (game : Game) : Str :=
  W.g_path_svn ++ " update \"".toList ++ game.MasterlistPath ++ "\"".toList

/-- Command line of line 211: `svn update --revision PREV "<masterlist>"`. -/
def rollbackCommand (W : World) (game : Game) : Str :=
  W.g_path_svn ++ " update --revision PREV \"".toList ++ game.MasterlistPath ++ "\"".toList

/-- The string pushed onto `parsingErrors` at line 210. -/
def parsingError (revision what : Str) : Str :=
  "Masterlist revision ".toList ++ revision ++ ": ".toList ++ what

/-- The loop `while (true)` of lines 188-217, run for at most `fuel` rounds.  Only a
`YAML::Exception` is caught, so the errors of `RunCommand` and of `GetRevision` leave
the function; in the handler `revision` is the value assigned in the same round. -/
def validateLoop (W : World) (game : Game) : Nat → List Str → List Call → Run
  | 0, parsingErrors, hist => ⟨none, parsingErrors, hist⟩
  | fuel + 1, parsingErrors, hist =>
    let command := infoCommand W game
    let hist1 := hist ++ [Call.RunCommand command]
    match RunCommand W hist command with
    | .error e => ⟨some (.threw e), parsingErrors, hist1⟩
    | .ok (false, output) =>
      ⟨some (.threw (.error .subversion_error
        ("Subversion could not read the masterlist revision number. Details: ".toList
          ++ output))), parsingErrors, hist1⟩
    | .ok (true, output) =>
      match GetRevision output with
      | none => ⟨some (.threw .out_of_range), parsingErrors, hist1⟩
      | some revision =>
        let hist2 := hist1 ++ [Call.LoadFile game.MasterlistPath]
        match W.LoadFile hist1 game.MasterlistPath with
        | none => ⟨some (.returned revision), parsingErrors, hist2⟩
        | some what =>
          let parsingErrors := parsingErrors ++ [parsingError revision what]
          let command := rollbackCommand W game
          let hist3 := hist2 ++ [Call.RunCommand command]
          match RunCommand W hist2 command with
          | .error e => ⟨some (.threw e), parsingErrors, hist3⟩
          | .ok (false, output) =>
            ⟨some (.threw (.error .subversion_error
              ("Subversion could not update the masterlist. Details: ".toList ++ output))),
              parsingErrors, hist3⟩
          | .ok (true, _) => validateLoop W game fuel parsingErrors hist3

/-- Lines 180-217: the update, then the loop. -/
def updateAndValidate (W : World) (game : Game) (parsingErrors : List Str)
    (hist : List Call) (fuel : Nat) : Run :=
  let command := updateCommand W game
  let hist1 := hist ++ [Call.RunCommand command]
  match RunCommand W hist command with
  | .error e => ⟨some (.threw e), parsingErrors, hist1⟩
  | .ok (false, output) =>
    ⟨some (.threw (.error .subversion_error
      ("Subversion could not update the masterlist. Details: ".toList ++ output))),
      parsingErrors, hist1⟩
  | .ok (true, _) => validateLoop W game fuel parsingErrors hist1

/-- Lines 154-217, the branch taken when the address does not end in `.git`. -/
def subversionBranch (W : World) (game : Game) (parsingErrors : List Str) (fuel : Nat) : Run :=
  let command := infoCommand W game
  let hist := [Call.RunCommand command]
  match RunCommand W [] command with
  | .error e => ⟨some (.threw e), parsingErrors, hist⟩
  | .ok (success, output) =>
    match GetRevision output with
    | none => ⟨some (.threw .out_of_range), parsingErrors, hist⟩
    | some revision =>
      if game.URL.isEmpty then
        if !revision.isEmpty then
          ⟨some (.returned revision), parsingErrors, hist⟩
        else
          ⟨some (.returned "N/A".toList), parsingErrors, hist⟩
      else if !success then
        match checkoutCommand W game with
        | none => ⟨some (.threw .out_of_range), parsingErrors, hist⟩
        | some command =>
          let hist1 := hist ++ [Call.RunCommand command]
          match RunCommand W hist command with
          | .error e => ⟨some (.threw e), parsingErrors, hist1⟩
          | .ok (false, output) =>
            ⟨some (.threw (.error .subversion_error
              ("Subversion could not perform a checkout. Details: ".toList ++ output))),
              parsingErrors, hist1⟩
          | .ok (true, _) => updateAndValidate W game parsingErrors hist1 fuel
      else
        updateAndValidate W game parsingErrors hist fuel

/-! ## `UpdateMasterlist`, Git branch -/

/-- Lines 264-351, the branch taken when the address ends in `.git`.  The error code
of each library call is only logged, so the calls do not depend on it.  The test
`url != game.URL().c_str()` compares two addresses.  After the two `free` calls the
function body ends; there is no `return` statement on this branch. -/
def gitBranch (W : World) (game : Game) (parsingErrors : List Str) : Run :=
  let folder := W.parent_path game.MasterlistPath
  let hist := [Call.fs_exists (W.path_append folder ".git".toList)]
  let hist1 :=
    if W.fs_exists [] (W.path_append folder ".git".toList) then
      let hist1 := hist ++ [Call.git_repository_open folder,
        Call.git_remote_load "origin".toList, Call.git_remote_url]
      if W.git_remote_url hist1 != W.c_str hist1 then
        hist1 ++ [Call.git_remote_set_url game.URL]
      else
        hist1
    else
      hist ++ [Call.git_repository_init folder false,
        Call.git_remote_create "origin".toList game.URL,
        Call.git_repository_config,
        Call.git_config_set_bool "core.sparseCheckout".toList true,
        Call.ofstream_write (W.path_append folder ".git/info/sparse-checkout".toList)
          "masterlist.yaml".toList]
  ⟨some .fellOffEnd, parsingErrors, hist1 ++ [Call.git_remote_free, Call.git_repository_free]⟩

/-! ## `UpdateMasterlist` -/

/-- The function `UpdateMasterlist` (network.cpp, lines 147-352). -/
def UpdateMasterlist (W : World) (game : Game) (parsingErrors : List Str) (fuel : Nat) : Run :=
  if !iends_with game.URL ".git".toList then
    subversionBranch W game parsingErrors fuel
  else
    gitBranch W game parsingErrors

/-! ## Vocabulary of the statements -/

/-- Whether a call of `RunCommand` returned `true`. -/
def succeeded : Except Exception (Bool × Str) → Bool
  | .ok (true, _) => true
  | _ => false

/-- The three calls of a round of the loop whose validation fails: `svn info`, the
YAML loader, `svn update --revision PREV`. -/
def failedRound (W : World) (game : Game) : List Call :=
  [Call.RunCommand (infoCommand W game), Call.LoadFile game.MasterlistPath,
    Call.RunCommand (rollbackCommand W game)]

/-- The calls made when round `i` of the loop starts, after the calls `before` and
`i` rounds whose validation failed. -/
def roundStart (W : World) (game : Game) (before : List Call) (i : Nat) : List Call :=
  before ++ (List.replicate i (failedRound W game)).flatten

/-- The calls made before the loop when the working copy is already set up:
`svn info`, then `svn update`. -/
def setupCalls (W : World) (game : Game) : List Call :=
  [Call.RunCommand (infoCommand W game), Call.RunCommand (updateCommand W game)]

/-- Whether a call is the YAML loader. -/
def Call.isLoadFile : Call → Bool
  | .LoadFile _ => true
  | _ => false

/-- Whether a call starts a child process. -/
def Call.isRunCommand : Call → Bool
  | .RunCommand _ => true
  | _ => false

/-- An address ends in `.git` written in any mix of upper and lower case: one of the
eight spellings is a suffix of it. -/
def EndsInDotGit (url : Str) : Prop :=
  ∃ e1 ∈ ['g', 'G'], ∃ e2 ∈ ['i', 'I'], ∃ e3 ∈ ['t', 'T'], ['.', e1, e2, e3] <:+ url

instance (url : Str) : Decidable (EndsInDotGit url) := by
  unfold EndsInDotGit
  infer_instance

/-! ## A sample world -/

/-- Number of rollback commands among the calls made so far. -/
def sampleRollbacks (hist : List Call) : Nat :=
  hist.count (Call.RunCommand "svn update --revision PREV \"Skyrim/masterlist.yaml\"".toList)

/-- Output of `svn info` in the sample world after `n` rollbacks; the latest revision
is 44. -/
def sampleInfo : Nat → Str
  | 0 => ("Path: Skyrim/masterlist.yaml\nRevision: 44\nNode Kind: file\n"
      ++ "Last Changed Rev: 44\nLast Changed Date: 2013-01-03 12:00:00 +0000\n").toList
  | 1 => ("Path: Skyrim/masterlist.yaml\nRevision: 43\nNode Kind: file\n"
      ++ "Last Changed Rev: 43\nLast Changed Date: 2013-01-02 12:00:00 +0000\n").toList
  | _ => ("Path: Skyrim/masterlist.yaml\nRevision: 42\nNode Kind: file\n"
      ++ "Last Changed Rev: 42\nLast Changed Date: 2013-01-01 12:00:00 +0000\n").toList

/-- Revision identifier read in the sample world after `n` rollbacks. -/
def sampleRevision : Nat → Str
  | 0 => "44 (2013-01-03)".toList
  | 1 => "43 (2013-01-02)".toList
  | _ => "42 (2013-01-01)".toList

/-- A world with a working copy at revision 44 whose `bad` latest revisions do not
parse, where `svn update` exits with `updateExit`, every other command exits with 0,
and a Git repository exists whose remote is held in another buffer than the game's
address. -/
def sampleWorld (bad updateExit : Nat) : World where
  g_path_svn := "svn".toList
  parent_path := fun _ => "Skyrim".toList
  path_append := fun a b => a ++ '/' :: b
  process := fun hist command =>
    if command = "svn info \"Skyrim/masterlist.yaml\"".toList then
      .finished 0 (sampleInfo (sampleRollbacks hist))
    else if command = "svn update \"Skyrim/masterlist.yaml\"".toList then
      .finished updateExit "svn: E170013: Unable to connect to a repository".toList
    else
      .finished 0 "Updated.".toList
  LoadFile := fun hist _ =>
    if sampleRollbacks hist < bad then some "yaml-cpp: error at line 3, column 1".toList
    else none
  fs_exists := fun _ _ => true
  git_remote_url := fun _ => 4096
  c_str := fun _ => 8192

/-- A game whose masterlist comes from a Subversion address. -/
def sampleGame : Game :=
  ⟨"https://example.com/svnrepo/trunk".toList, "Skyrim/masterlist.yaml".toList⟩

/-- A game with no address configured. -/
def offlineGame : Game := ⟨[], "Skyrim/masterlist.yaml".toList⟩

/-- A game whose masterlist comes from a Git address. -/
def gitGame : Game :=
  ⟨"https://example.com/repo.git".toList, "Skyrim/masterlist.yaml".toList⟩

/-- A game whose Git address is written in upper case. -/
def upperCaseGame : Game :=
  ⟨"https://example.com/REPO.GIT".toList, "Skyrim/masterlist.yaml".toList⟩

/-! ## Lemmas on `find`, `rfind` and `substr` -/

set_option maxRecDepth 100000

theorem isPrefixOf_true_iff (p l : Str) : p.isPrefixOf l = true ↔ ∃ y, l = p ++ y := by
  induction p generalizing l with
  | nil => simp
  | cons a p ih =>
    cases l with
    | nil => simp [List.isPrefixOf]
    | cons b l =>
      simp only [List.isPrefixOf, Bool.and_eq_true, beq_iff_eq, ih, List.cons_append,
        List.cons.injEq]
      constructor
      · rintro ⟨rfl, y, rfl⟩
        exact ⟨y, rfl, rfl⟩
      · rintro ⟨y, rfl, rfl⟩
        exact ⟨rfl, y, rfl⟩

theorem findFrom_some (pat : Str) (l : Str) (i p : Nat) (h : findFrom pat l i = some p) :
    ∃ x y, l = x ++ pat ++ y ∧ p = i + x.length := by
  induction l generalizing i with
  | nil =>
    simp only [findFrom] at h
    split at h
    · rename_i hp
      obtain ⟨y, hy⟩ := (isPrefixOf_true_iff pat []).1 hp
      refine ⟨[], y, by simpa using hy, ?_⟩
      simp at h; simp [h]
    · cases h
  | cons c cs ih =>
    simp only [findFrom] at h
    split at h
    · rename_i hp
      obtain ⟨y, hy⟩ := (isPrefixOf_true_iff pat (c :: cs)).1 hp
      refine ⟨[], y, by simpa using hy, ?_⟩
      simp at h; simp [h]
    · obtain ⟨x, y, hxy, hp⟩ := ih (i + 1) h
      refine ⟨c :: x, y, by simp [hxy], ?_⟩
      simp [hp]; omega

theorem findFrom_first (pat x y : Str) (i : Nat)
    (hmin : ∀ x' y', x ++ pat ++ y = x' ++ pat ++ y' → x.length ≤ x'.length) :
    findFrom pat (x ++ pat ++ y) i = some (i + x.length) := by
  induction x generalizing i with
  | nil =>
    have hp : pat.isPrefixOf ([] ++ pat ++ y) = true :=
      (isPrefixOf_true_iff _ _).2 ⟨y, by simp⟩
    cases hl : ([] ++ pat ++ y : Str) with
    | nil => rw [hl] at hp; simp [findFrom, hp]
    | cons c cs => rw [hl] at hp; simp [findFrom, hp]
  | cons c x ih =>
    have hnp : ¬ pat.isPrefixOf (c :: x ++ pat ++ y) = true := by
      intro hp
      obtain ⟨y', hy'⟩ := (isPrefixOf_true_iff _ _).1 hp
      have := hmin [] y' (by simpa using hy')
      simp at this
    have hrec := ih (i + 1) (fun x' y' h => by
      have := hmin (c :: x') y' (by simp [h])
      simpa using this)
    simp only [List.cons_append] at hnp ⊢
    simp only [findFrom, hnp, if_false]
    simp only [List.append_assoc] at hrec ⊢
    rw [hrec]
    simp; omega

theorem rfindFrom_some (pat : Str) (l : Str) (i p : Nat) (h : rfindFrom pat l i = some p) :
    ∃ x y, l = x ++ pat ++ y ∧ p = i + x.length := by
  induction l generalizing i p with
  | nil =>
    simp only [rfindFrom] at h
    split at h
    · rename_i hp
      obtain ⟨y, hy⟩ := (isPrefixOf_true_iff pat []).1 hp
      refine ⟨[], y, by simpa using hy, ?_⟩
      simp at h; simp [h]
    · cases h
  | cons c cs ih =>
    simp only [rfindFrom] at h
    cases hr : rfindFrom pat cs (i + 1) with
    | some q =>
      rw [hr] at h
      simp only [Option.some.injEq] at h
      obtain ⟨x, y, hxy, hp⟩ := ih (i + 1) q hr
      refine ⟨c :: x, y, by simp [hxy], ?_⟩
      simp [← h, hp]; omega
    | none =>
      rw [hr] at h
      simp only at h
      split at h
      · rename_i hp
        obtain ⟨y, hy⟩ := (isPrefixOf_true_iff pat (c :: cs)).1 hp
        refine ⟨[], y, by simpa using hy, ?_⟩
        simp at h; simp [h]
      · cases h

theorem rfindFrom_none (pat : Str) (l : Str) (i : Nat)
    (h : ∀ x y, l ≠ x ++ pat ++ y) : rfindFrom pat l i = none := by
  cases hr : rfindFrom pat l i with
  | none => rfl
  | some p =>
    obtain ⟨x, y, hxy, _⟩ := rfindFrom_some pat l i p hr
    exact absurd hxy (h x y)

theorem rfindFrom_last (pat x y : Str) (i : Nat)
    (hmax : ∀ x' y', x ++ pat ++ y = x' ++ pat ++ y' → x'.length ≤ x.length) :
    rfindFrom pat (x ++ pat ++ y) i = some (i + x.length) := by
  induction x generalizing i with
  | nil =>
    have hp : pat.isPrefixOf ([] ++ pat ++ y) = true :=
      (isPrefixOf_true_iff _ _).2 ⟨y, by simp⟩
    cases hl : ([] ++ pat ++ y : Str) with
    | nil => rw [hl] at hp; simp [rfindFrom, hp]
    | cons c cs =>
      rw [hl] at hp
      have hnone : rfindFrom pat cs (i + 1) = none := by
        apply rfindFrom_none
        intro x' y' hcs
        have := hmax (c :: x') y' (by rw [hl, hcs]; simp)
        simp at this
      simp [rfindFrom, hnone, hp]
  | cons c x ih =>
    have hrec := ih (i + 1) (fun x' y' h => by
      have := hmax (c :: x') y' (by simp [h])
      simpa using this)
    have hunf : rfindFrom pat (c :: x ++ pat ++ y) i =
        match rfindFrom pat (x ++ pat ++ y) (i + 1) with
        | some p => some p
        | none => if pat.isPrefixOf (c :: (x ++ pat ++ y)) then some i else none := rfl
    rw [hunf, hrec]
    simp; omega

theorem find_at (a x y pat : Str)
    (hmin : ∀ x' y', x ++ pat ++ y = x' ++ pat ++ y' → x.length ≤ x'.length) :
    find (a ++ (x ++ pat ++ y)) pat a.length = a.length + x.length := by
  unfold find
  rw [if_neg (by simp)]
  rw [List.drop_left, findFrom_first pat x y a.length hmin]
  rfl

theorem rfind_at (x y pat : Str)
    (hmax : ∀ x' y', x ++ pat ++ y = x' ++ pat ++ y' → x'.length ≤ x.length) :
    rfind (x ++ pat ++ y) pat = x.length := by
  unfold rfind
  rw [rfindFrom_last pat x y 0 hmax]
  simp

theorem rfind_absent (s pat : Str) (h : ∀ x y, s ≠ x ++ pat ++ y) : rfind s pat = npos := by
  unfold rfind
  rw [rfindFrom_none pat s 0 h]
  rfl

theorem substr_at (a m z : Str) : substr (a ++ (m ++ z)) a.length m.length = some m := by
  unfold substr
  rw [if_neg (by simp)]
  simp

theorem char_first (ch : Char) (x y : Str) (h : ch ∉ x) (x' y' : Str)
    (he : x ++ [ch] ++ y = x' ++ [ch] ++ y') : x.length ≤ x'.length := by
  induction x generalizing x' with
  | nil => simp
  | cons e x ih =>
    cases x' with
    | nil =>
      simp at he
      exact absurd he.1.symm (fun hc => h (by simp [hc]))
    | cons e' x' =>
      simp only [List.cons_append, List.cons.injEq] at he
      have := ih (fun hc => h (List.mem_cons_of_mem _ hc)) x' he.2
      simpa using this

/-! ## The command lines are pairwise different -/

theorem infoCommand_ne_updateCommand (W : World) (game : Game) :
    infoCommand W game ≠ updateCommand W game := by
  simp [infoCommand, updateCommand]

theorem infoCommand_ne_rollbackCommand (W : World) (game : Game) :
    infoCommand W game ≠ rollbackCommand W game := by
  simp [infoCommand, rollbackCommand]

theorem updateCommand_ne_rollbackCommand (W : World) (game : Game) :
    updateCommand W game ≠ rollbackCommand W game := by
  simp [updateCommand, rollbackCommand]

theorem checkoutCommand_ne_updateCommand (W : World) (game : Game) (command : Str)
    (h : checkoutCommand W game = some command) : command ≠ updateCommand W game := by
  unfold checkoutCommand at h
  split at h
  · cases h
  · cases h
    simp [updateCommand]

theorem checkoutCommand_ne_rollbackCommand (W : World) (game : Game) (command : Str)
    (h : checkoutCommand W game = some command) : command ≠ rollbackCommand W game := by
  unfold checkoutCommand at h
  split at h
  · cases h
  · cases h
    simp [rollbackCommand]

/-! ## `RunCommand` -/

theorem succeeded_iff (r : Except Exception (Bool × Str)) :
    succeeded r = true ↔ ∃ output, r = .ok (true, output) := by
  cases r with
  | error e => simp [succeeded]
  | ok v =>
    obtain ⟨b, o⟩ := v
    cases b <;> simp [succeeded]

/-! ## The loop -/

theorem roundStart_succ (W : World) (game : Game) (before : List Call) (i : Nat) :
    roundStart W game before (i + 1) = roundStart W game (before ++ failedRound W game) i := by
  simp [roundStart, List.replicate_succ]

theorem validateLoop_rollback (W : World) (game : Game) (k : Nat) :
    ∀ (fuel : Nat) (parsingErrors : List Str) (before : List Call)
      (output revision what : Nat → Str),
      k < fuel →
      (∀ i, i ≤ k → RunCommand W (roundStart W game before i) (infoCommand W game)
        = .ok (true, output i)) →
      (∀ i, i ≤ k → GetRevision (output i) = some (revision i)) →
      (∀ i, i < k → W.LoadFile (roundStart W game before i
        ++ [Call.RunCommand (infoCommand W game)]) game.MasterlistPath = some (what i)) →
      (∀ i, i < k → succeeded (RunCommand W (roundStart W game before i
        ++ [Call.RunCommand (infoCommand W game), Call.LoadFile game.MasterlistPath])
        (rollbackCommand W game)) = true) →
      W.LoadFile (roundStart W game before k ++ [Call.RunCommand (infoCommand W game)])
        game.MasterlistPath = none →
      validateLoop W game fuel parsingErrors before =
        ⟨some (.returned (revision k)),
          parsingErrors ++ (List.range k).map (fun i => parsingError (revision i) (what i)),
          roundStart W game before k
            ++ [Call.RunCommand (infoCommand W game), Call.LoadFile game.MasterlistPath]⟩ := by
  induction k with
  | zero =>
    intro fuel parsingErrors before output revision what hfuel hinfo hrev _ _ hvalid
    obtain ⟨fuel, rfl⟩ : ∃ f, fuel = f + 1 := ⟨fuel - 1, by omega⟩
    have h0 := hinfo 0 (le_refl 0)
    have hr0 := hrev 0 (le_refl 0)
    simp only [roundStart, List.replicate_zero, List.flatten_nil, List.append_nil] at h0 hvalid
    simp [validateLoop, h0, hr0, hvalid, roundStart]
  | succ k ih =>
    intro fuel parsingErrors before output revision what hfuel hinfo hrev hfail hroll hvalid
    obtain ⟨fuel, rfl⟩ : ∃ f, fuel = f + 1 := ⟨fuel - 1, by omega⟩
    have h0 := hinfo 0 (Nat.zero_le _)
    have hr0 := hrev 0 (Nat.zero_le _)
    have hf0 := hfail 0 (Nat.succ_pos _)
    obtain ⟨o, ho⟩ := (succeeded_iff _).1 (hroll 0 (Nat.succ_pos _))
    simp only [roundStart, List.replicate_zero, List.flatten_nil, List.append_nil] at h0 hf0 ho
    have hnext : before ++ [Call.RunCommand (infoCommand W game)]
        ++ [Call.LoadFile game.MasterlistPath] ++ [Call.RunCommand (rollbackCommand W game)]
        = before ++ failedRound W game := by simp [failedRound]
    have hstep := ih fuel (parsingErrors ++ [parsingError (revision 0) (what 0)])
      (before ++ failedRound W game) (fun i => output (i + 1)) (fun i => revision (i + 1))
      (fun i => what (i + 1)) (by omega)
      (fun i hi => by rw [← roundStart_succ]; exact hinfo (i + 1) (by omega))
      (fun i hi => hrev (i + 1) (by omega))
      (fun i hi => by rw [← roundStart_succ]; exact hfail (i + 1) (by omega))
      (fun i hi => by rw [← roundStart_succ]; exact hroll (i + 1) (by omega))
      (by rw [← roundStart_succ]; exact hvalid)
    have ho' : RunCommand W (before ++ [Call.RunCommand (infoCommand W game)]
        ++ [Call.LoadFile game.MasterlistPath]) (rollbackCommand W game) = .ok (true, o) := by
      rw [← ho]; simp
    rw [validateLoop]
    simp only [h0, hr0, hf0, ho', hnext, hstep, ← roundStart_succ]
    simp [List.range_succ_eq_map, List.map_map, Function.comp_def]

/-! ## Backend selection -/

theorem is_iequal_t (c : Char) : is_iequal c 't' = true ↔ c = 't' ∨ c = 'T' := by
  have hc : c = Char.ofNat c.toNat := (Char.ofNat_toNat c).symm
  have ht : 't'.toUpper = 'T' := by decide
  unfold is_iequal
  rw [ht]
  by_cases h : c.toNat ≥ 97 ∧ c.toNat ≤ 122
  · obtain ⟨h1, h2⟩ := h
    generalize c.toNat = n at *
    subst hc
    interval_cases n <;> decide
  · have hu : c.toUpper = c := by
      unfold Char.toUpper
      simp only [h, if_false]
    rw [hu]
    constructor
    · intro h'; right; simpa using h'
    · rintro (rfl | rfl)
      · exact absurd (by decide) h
      · decide

theorem is_iequal_i (c : Char) : is_iequal c 'i' = true ↔ c = 'i' ∨ c = 'I' := by
  have hc : c = Char.ofNat c.toNat := (Char.ofNat_toNat c).symm
  have ht : 'i'.toUpper = 'I' := by decide
  unfold is_iequal
  rw [ht]
  by_cases h : c.toNat ≥ 97 ∧ c.toNat ≤ 122
  · obtain ⟨h1, h2⟩ := h
    generalize c.toNat = n at *
    subst hc
    interval_cases n <;> decide
  · have hu : c.toUpper = c := by
      unfold Char.toUpper
      simp only [h, if_false]
    rw [hu]
    constructor
    · intro h'; right; simpa using h'
    · rintro (rfl | rfl)
      · exact absurd (by decide) h
      · decide

theorem is_iequal_g (c : Char) : is_iequal c 'g' = true ↔ c = 'g' ∨ c = 'G' := by
  have hc : c = Char.ofNat c.toNat := (Char.ofNat_toNat c).symm
  have ht : 'g'.toUpper = 'G' := by decide
  unfold is_iequal
  rw [ht]
  by_cases h : c.toNat ≥ 97 ∧ c.toNat ≤ 122
  · obtain ⟨h1, h2⟩ := h
    generalize c.toNat = n at *
    subst hc
    interval_cases n <;> decide
  · have hu : c.toUpper = c := by
      unfold Char.toUpper
      simp only [h, if_false]
    rw [hu]
    constructor
    · intro h'; right; simpa using h'
    · rintro (rfl | rfl)
      · exact absurd (by decide) h
      · decide

theorem is_iequal_dot (c : Char) : is_iequal c '.' = true ↔ c = '.' := by
  have hc : c = Char.ofNat c.toNat := (Char.ofNat_toNat c).symm
  have ht : '.'.toUpper = '.' := by decide
  unfold is_iequal
  rw [ht]
  by_cases h : c.toNat ≥ 97 ∧ c.toNat ≤ 122
  · obtain ⟨h1, h2⟩ := h
    generalize c.toNat = n at *
    subst hc
    interval_cases n <;> decide
  · have hu : c.toUpper = c := by
      unfold Char.toUpper
      simp only [h, if_false]
    rw [hu]
    simp

theorem ends_with_iter_git (r : Str) :
    ends_with_iter r ['t', 'i', 'g', '.'] = true ↔
      ∃ rest e1 e2 e3, r = e3 :: e2 :: e1 :: '.' :: rest ∧ (e1 = 'g' ∨ e1 = 'G') ∧
        (e2 = 'i' ∨ e2 = 'I') ∧ (e3 = 't' ∨ e3 = 'T') := by
  match r with
  | [] => simp [ends_with_iter]
  | [_] => simp [ends_with_iter]
  | [_, _] => simp [ends_with_iter]
  | [_, _, _] => simp [ends_with_iter]
  | c1 :: c2 :: c3 :: c4 :: rest =>
    simp only [ends_with_iter]
    constructor
    · intro h
      split_ifs at h with h1 h2 h3 h4
      exact ⟨rest, c3, c2, c1, by rw [(is_iequal_dot c4).1 h4], (is_iequal_g c3).1 h3,
        (is_iequal_i c2).1 h2, (is_iequal_t c1).1 h1⟩
    · rintro ⟨rest', e1, e2, e3, heq, h1, h2, h3⟩
      simp only [List.cons.injEq] at heq
      obtain ⟨rfl, rfl, rfl, rfl, rfl⟩ := heq
      rw [if_pos ((is_iequal_t _).2 h3), if_pos ((is_iequal_i _).2 h2),
        if_pos ((is_iequal_g _).2 h1), if_pos ((is_iequal_dot _).2 rfl)]

theorem iends_with_git_iff (url : Str) :
    iends_with url ".git".toList = true ↔ EndsInDotGit url := by
  have hrev : (".git".toList).reverse = ['t', 'i', 'g', '.'] := by decide
  unfold iends_with EndsInDotGit
  rw [hrev, ends_with_iter_git]
  constructor
  · rintro ⟨rest, e1, e2, e3, h, h1, h2, h3⟩
    refine ⟨e1, by simpa using h1, e2, by simpa using h2, e3, by simpa using h3,
      rest.reverse, ?_⟩
    have := congrArg List.reverse h
    simpa using this.symm
  · rintro ⟨e1, h1, e2, h2, e3, h3, p, h⟩
    refine ⟨p.reverse, e1, e2, e3, ?_, by simpa using h1, by simpa using h2,
      by simpa using h3⟩
    rw [← h]
    simp

/-! ## The Git branch -/

theorem gitBranch_outcome (W : World) (game : Game) (parsingErrors : List Str) :
    (gitBranch W game parsingErrors).outcome = some .fellOffEnd := rfl

theorem gitBranch_parsingErrors (W : World) (game : Game) (parsingErrors : List Str) :
    (gitBranch W game parsingErrors).parsingErrors = parsingErrors := rfl

theorem gitBranch_trace (W : World) (game : Game) (parsingErrors : List Str) (c : Call)
    (hc : c ∈ (gitBranch W game parsingErrors).trace) :
    c.isRunCommand = false ∧ c.isLoadFile = false := by
  have hall : (gitBranch W game parsingErrors).trace.all
      (fun c => !c.isRunCommand && !c.isLoadFile) = true := by
    unfold gitBranch
    simp only
    split_ifs <;> rfl
  have := List.all_eq_true.1 hall c hc
  simpa using this

/-! ## Shape of the traces of the Subversion branch -/

theorem validateLoop_trace (W : World) (game : Game) (fuel : Nat) :
    ∀ (parsingErrors : List Str) (hist : List Call),
      ∃ t, (validateLoop W game fuel parsingErrors hist).trace = hist ++ t ∧
        ∀ c ∈ t, c = Call.RunCommand (infoCommand W game) ∨
          c = Call.LoadFile game.MasterlistPath ∨
          c = Call.RunCommand (rollbackCommand W game) := by
  induction fuel with
  | zero =>
    intro parsingErrors hist
    exact ⟨[], by simp [validateLoop], by simp⟩
  | succ fuel ih =>
    intro parsingErrors hist
    rw [validateLoop]
    simp only
    split
    · exact ⟨[_], rfl, by simp⟩
    · exact ⟨[_], rfl, by simp⟩
    · split
      · exact ⟨[_], rfl, by simp⟩
      · split
        · exact ⟨[Call.RunCommand (infoCommand W game), Call.LoadFile game.MasterlistPath],
            by simp, by simp⟩
        · split
          · exact ⟨[Call.RunCommand (infoCommand W game), Call.LoadFile game.MasterlistPath,
              Call.RunCommand (rollbackCommand W game)], by simp, by simp⟩
          · exact ⟨[Call.RunCommand (infoCommand W game), Call.LoadFile game.MasterlistPath,
              Call.RunCommand (rollbackCommand W game)], by simp, by simp⟩
          · obtain ⟨t, ht, hmem⟩ := ih (parsingErrors ++ [parsingError _ _])
              (hist ++ [Call.RunCommand (infoCommand W game)]
                ++ [Call.LoadFile game.MasterlistPath]
                ++ [Call.RunCommand (rollbackCommand W game)])
            refine ⟨[Call.RunCommand (infoCommand W game), Call.LoadFile game.MasterlistPath,
              Call.RunCommand (rollbackCommand W game)] ++ t, ?_, ?_⟩
            · rw [ht]; simp
            · intro c hc
              simp only [List.mem_append, List.mem_cons, List.mem_singleton,
                List.not_mem_nil, or_false] at hc
              rcases hc with (h | h | h) | h
              · exact Or.inl h
              · exact Or.inr (Or.inl h)
              · exact Or.inr (Or.inr h)
              · exact hmem c h

theorem updateAndValidate_trace (W : World) (game : Game) (parsingErrors : List Str)
    (hist : List Call) (fuel : Nat) :
    ∃ t, (updateAndValidate W game parsingErrors hist fuel).trace
        = hist ++ Call.RunCommand (updateCommand W game) :: t ∧
      ∀ c ∈ t, c = Call.RunCommand (infoCommand W game) ∨
        c = Call.LoadFile game.MasterlistPath ∨
        c = Call.RunCommand (rollbackCommand W game) := by
  unfold updateAndValidate
  simp only
  split
  · exact ⟨[], rfl, by simp⟩
  · exact ⟨[], rfl, by simp⟩
  · obtain ⟨t, ht, hmem⟩ := validateLoop_trace W game fuel parsingErrors
      (hist ++ [Call.RunCommand (updateCommand W game)])
    exact ⟨t, by rw [ht]; simp, hmem⟩

theorem updateAndValidate_failed (W : World) (game : Game) (parsingErrors : List Str)
    (hist : List Call) (fuel : Nat) (output : Str)
    (h : RunCommand W hist (updateCommand W game) = .ok (false, output)) :
    updateAndValidate W game parsingErrors hist fuel =
      ⟨some (.threw (.error .subversion_error
        ("Subversion could not update the masterlist. Details: ".toList ++ output))),
        parsingErrors, hist ++ [Call.RunCommand (updateCommand W game)]⟩ := by
  unfold updateAndValidate
  simp only [h]

/-- Either the Subversion branch stops before the update, having run only `svn info`
and perhaps the checkout (it then returns only for an empty address, and throws
otherwise), or it goes on with the update after those calls. -/
theorem subversionBranch_cases (W : World) (game : Game) (parsingErrors : List Str)
    (fuel : Nat) :
    (((subversionBranch W game parsingErrors fuel).trace
          = [Call.RunCommand (infoCommand W game)] ∨
        ∃ command, checkoutCommand W game = some command ∧
          (subversionBranch W game parsingErrors fuel).trace
            = [Call.RunCommand (infoCommand W game), Call.RunCommand command]) ∧
      (game.URL.isEmpty = true ∨
        ∃ e, (subversionBranch W game parsingErrors fuel).outcome = some (.threw e))) ∨
    (subversionBranch W game parsingErrors fuel
        = updateAndValidate W game parsingErrors [Call.RunCommand (infoCommand W game)] fuel ∨
      ∃ command, checkoutCommand W game = some command ∧
        subversionBranch W game parsingErrors fuel
          = updateAndValidate W game parsingErrors
            [Call.RunCommand (infoCommand W game), Call.RunCommand command] fuel) := by
  unfold subversionBranch
  simp only
  split
  · exact Or.inl ⟨Or.inl rfl, Or.inr ⟨_, rfl⟩⟩
  · split
    · exact Or.inl ⟨Or.inl rfl, Or.inr ⟨_, rfl⟩⟩
    · split_ifs with h1 h2 h3
      · exact Or.inl ⟨Or.inl rfl, Or.inl h1⟩
      · exact Or.inl ⟨Or.inl rfl, Or.inl h1⟩
      · split
        · exact Or.inl ⟨Or.inl rfl, Or.inr ⟨_, rfl⟩⟩
        · rename_i command hcommand
          split
          · exact Or.inl ⟨Or.inr ⟨command, hcommand, rfl⟩, Or.inr ⟨_, rfl⟩⟩
          · exact Or.inl ⟨Or.inr ⟨command, hcommand, rfl⟩, Or.inr ⟨_, rfl⟩⟩
          · exact Or.inr (Or.inr ⟨command, hcommand, rfl⟩)
      · exact Or.inr (Or.inl rfl)

theorem subversionBranch_trace_head (W : World) (game : Game) (parsingErrors : List Str)
    (fuel : Nat) :
    ∃ t, (subversionBranch W game parsingErrors fuel).trace
      = Call.RunCommand (infoCommand W game) :: t := by
  rcases subversionBranch_cases W game parsingErrors fuel with
    ⟨h | ⟨command, _, h⟩, _⟩ | (h | ⟨command, _, h⟩)
  · exact ⟨_, h⟩
  · exact ⟨_, h⟩
  · obtain ⟨t, ht, _⟩ := updateAndValidate_trace W game parsingErrors
      [Call.RunCommand (infoCommand W game)] fuel
    exact ⟨_, by rw [h, ht]; rfl⟩
  · obtain ⟨t, ht, _⟩ := updateAndValidate_trace W game parsingErrors
      [Call.RunCommand (infoCommand W game), Call.RunCommand command] fuel
    exact ⟨_, by rw [h, ht]; rfl⟩

theorem gitBranch_ne_subversionBranch (W : World) (game : Game) (parsingErrors : List Str)
    (fuel : Nat) : gitBranch W game parsingErrors ≠ subversionBranch W game parsingErrors fuel := by
  intro h
  obtain ⟨t, ht⟩ := subversionBranch_trace_head W game parsingErrors fuel
  have hmem : Call.RunCommand (infoCommand W game) ∈ (gitBranch W game parsingErrors).trace := by
    rw [h, ht]; simp
  have := (gitBranch_trace W game parsingErrors _ hmem).1
  simp [Call.isRunCommand] at this

/-- A call that is absent before and after its one place in a list sits only there. -/
theorem split_unique {α : Type} (u : α) (h0 t hist rest : List α) (hh : u ∉ h0) (ht : u ∉ t)
    (he : hist ++ u :: rest = h0 ++ u :: t) : hist = h0 := by
  rcases List.append_eq_append_iff.1 he with ⟨a, ha, hb⟩ | ⟨c, hc, hd⟩
  · cases a with
    | nil => simpa using ha.symm
    | cons x a =>
      simp only [List.cons_append, List.cons.injEq] at hb
      exact absurd (by rw [ha, hb.1]; simp) hh
  · cases c with
    | nil => simpa using hc
    | cons x c =>
      simp only [List.cons_append, List.cons.injEq] at hd
      exact absurd (by rw [hd.2, hd.1]; simp) ht

/-! ## Reaching the loop, and counting calls -/

theorem UpdateMasterlist_subversion (W : World) (game : Game) (parsingErrors : List Str)
    (fuel : Nat) (h : iends_with game.URL ".git".toList = false) :
    UpdateMasterlist W game parsingErrors fuel = subversionBranch W game parsingErrors fuel := by
  unfold UpdateMasterlist
  rw [h]
  rfl

theorem UpdateMasterlist_git (W : World) (game : Game) (parsingErrors : List Str)
    (fuel : Nat) (h : iends_with game.URL ".git".toList = true) :
    UpdateMasterlist W game parsingErrors fuel = gitBranch W game parsingErrors := by
  unfold UpdateMasterlist
  rw [h]
  rfl

theorem subversionBranch_setup (W : World) (game : Game) (parsingErrors : List Str)
    (fuel : Nat) (output0 : Str) (hURL : game.URL ≠ [])
    (hinfo0 : RunCommand W [] (infoCommand W game) = .ok (true, output0))
    (hrev0 : GetRevision output0 ≠ none)
    (hupdate : succeeded (RunCommand W [Call.RunCommand (infoCommand W game)]
      (updateCommand W game)) = true) :
    subversionBranch W game parsingErrors fuel
      = validateLoop W game fuel parsingErrors (setupCalls W game) := by
  obtain ⟨revision0, hrevision0⟩ := Option.ne_none_iff_exists'.1 hrev0
  obtain ⟨o, ho⟩ := (succeeded_iff _).1 hupdate
  have hempty : game.URL.isEmpty = false := by
    cases hu : game.URL with
    | nil => exact absurd hu hURL
    | cons _ _ => rfl
  unfold subversionBranch
  simp only [hinfo0, hrevision0, hempty]
  simp [updateAndValidate, ho, setupCalls]

theorem count_roundStart (W : World) (game : Game) (before : List Call) (k : Nat) (c : Call) :
    (roundStart W game before k).count c = before.count c + k * (failedRound W game).count c := by
  induction k generalizing before with
  | zero => simp [roundStart]
  | succ k ih =>
    rw [roundStart_succ, ih, List.count_append]
    ring

theorem count_rollback_failedRound (W : World) (game : Game) :
    (failedRound W game).count (Call.RunCommand (rollbackCommand W game)) = 1 := by
  have h := infoCommand_ne_rollbackCommand W game
  simp [failedRound, List.count_cons, h]

theorem count_rollback_setupCalls (W : World) (game : Game) :
    (setupCalls W game).count (Call.RunCommand (rollbackCommand W game)) = 0 := by
  have h1 := infoCommand_ne_rollbackCommand W game
  have h2 := updateCommand_ne_rollbackCommand W game
  simp [setupCalls, List.count_cons, h1, h2]

theorem count_update_setupCalls (W : World) (game : Game) :
    (setupCalls W game).count (Call.RunCommand (updateCommand W game)) = 1 := by
  have h1 := infoCommand_ne_updateCommand W game
  simp [setupCalls, List.count_cons, h1]

theorem occurs_drop (pat s x y : Str) (h : s = x ++ pat ++ y) :
    x.length ≤ s.length ∧ pat.isPrefixOf (s.drop x.length) = true := by
  subst h
  refine ⟨by simp, ?_⟩
  rw [List.append_assoc, List.drop_left]
  exact (isPrefixOf_true_iff _ _).2 ⟨y, rfl⟩

/-! ## What a normal return of the Subversion branch implies -/

theorem validateLoop_returned (W : World) (game : Game) (fuel : Nat) :
    ∀ (parsingErrors : List Str) (hist : List Call) (value : Str),
      (validateLoop W game fuel parsingErrors hist).outcome = some (.returned value) →
      ∃ h output,
        (validateLoop W game fuel parsingErrors hist).trace
          = h ++ [Call.RunCommand (infoCommand W game), Call.LoadFile game.MasterlistPath] ∧
        (h = hist ∨ h.getLast? = some (Call.RunCommand (rollbackCommand W game))) ∧
        RunCommand W h (infoCommand W game) = .ok (true, output) ∧
        GetRevision output = some value ∧
        W.LoadFile (h ++ [Call.RunCommand (infoCommand W game)]) game.MasterlistPath = none := by
  induction fuel with
  | zero =>
    intro parsingErrors hist value h
    simp [validateLoop] at h
  | succ fuel ih =>
    intro parsingErrors hist value h
    cases hinfo : RunCommand W hist (infoCommand W game) with
    | error e =>
      rw [validateLoop] at h
      simp only [hinfo] at h
      cases h
    | ok v =>
      obtain ⟨b, output⟩ := v
      cases b with
      | false =>
        rw [validateLoop] at h
        simp only [hinfo] at h
        cases h
      | true =>
        cases hrev : GetRevision output with
        | none =>
          rw [validateLoop] at h
          simp only [hinfo, hrev] at h
          cases h
        | some revision =>
          cases hload : W.LoadFile (hist ++ [Call.RunCommand (infoCommand W game)])
              game.MasterlistPath with
          | none =>
            have hrun : validateLoop W game (fuel + 1) parsingErrors hist
                = ⟨some (.returned revision), parsingErrors,
                  hist ++ [Call.RunCommand (infoCommand W game)]
                    ++ [Call.LoadFile game.MasterlistPath]⟩ := by
              rw [validateLoop]
              simp only [hinfo, hrev, hload]
            rw [hrun] at h ⊢
            simp only [Option.some.injEq, Outcome.returned.injEq] at h
            subst h
            exact ⟨hist, output, by simp, Or.inl rfl, hinfo, hrev, hload⟩
          | some what =>
            cases hroll : RunCommand W (hist ++ [Call.RunCommand (infoCommand W game)]
                ++ [Call.LoadFile game.MasterlistPath]) (rollbackCommand W game) with
            | error e =>
              rw [validateLoop] at h
              simp only [hinfo, hrev, hload, hroll] at h
              cases h
            | ok v =>
              obtain ⟨b, o⟩ := v
              cases b with
              | false =>
                rw [validateLoop] at h
                simp only [hinfo, hrev, hload, hroll] at h
                cases h
              | true =>
                have hrun : validateLoop W game (fuel + 1) parsingErrors hist
                    = validateLoop W game fuel
                      (parsingErrors ++ [parsingError revision what])
                      (hist ++ [Call.RunCommand (infoCommand W game)]
                        ++ [Call.LoadFile game.MasterlistPath]
                        ++ [Call.RunCommand (rollbackCommand W game)]) := by
                  rw [validateLoop]
                  simp only [hinfo, hrev, hload, hroll]
                rw [hrun] at h ⊢
                obtain ⟨h', output', htrace, hlast, hinfo', hrev', hload'⟩ := ih _ _ value h
                refine ⟨h', output', htrace, Or.inr ?_, hinfo', hrev', hload'⟩
                rcases hlast with rfl | hlast
                · simp
                · exact hlast

/-- On the Subversion branch with a non-empty address, a normal return comes right after a
validation that succeeded: the trace ends with `svn info` and the YAML loader, the call
before them is the update or a rollback, the loader accepted the document, and the value
returned is what `GetRevision` read from that `svn info`. -/
theorem subversionBranch_returned (W : World) (game : Game) (parsingErrors : List Str)
    (fuel : Nat) (value : Str) (hURL : game.URL ≠ [])
    (hret : (subversionBranch W game parsingErrors fuel).outcome = some (.returned value)) :
    ∃ h output,
      (subversionBranch W game parsingErrors fuel).trace
        = h ++ [Call.RunCommand (infoCommand W game), Call.LoadFile game.MasterlistPath] ∧
      (h.getLast? = some (Call.RunCommand (updateCommand W game)) ∨
        h.getLast? = some (Call.RunCommand (rollbackCommand W game))) ∧
      RunCommand W h (infoCommand W game) = .ok (true, output) ∧
      GetRevision output = some value ∧
      W.LoadFile (h ++ [Call.RunCommand (infoCommand W game)]) game.MasterlistPath = none := by
  have hempty : game.URL.isEmpty = false := by
    cases hu : game.URL with
    | nil => exact absurd hu hURL
    | cons _ _ => rfl
  -- a normal return of the update-and-validate part
  have hupd : ∀ hist : List Call,
      (updateAndValidate W game parsingErrors hist fuel).outcome = some (.returned value) →
      ∃ h output,
        (updateAndValidate W game parsingErrors hist fuel).trace
          = h ++ [Call.RunCommand (infoCommand W game), Call.LoadFile game.MasterlistPath] ∧
        (h.getLast? = some (Call.RunCommand (updateCommand W game)) ∨
          h.getLast? = some (Call.RunCommand (rollbackCommand W game))) ∧
        RunCommand W h (infoCommand W game) = .ok (true, output) ∧
        GetRevision output = some value ∧
        W.LoadFile (h ++ [Call.RunCommand (infoCommand W game)]) game.MasterlistPath
          = none := by
    intro hist h
    cases hupdate : RunCommand W hist (updateCommand W game) with
    | error e =>
      unfold updateAndValidate at h
      simp only [hupdate] at h
      cases h
    | ok v =>
      obtain ⟨b, o⟩ := v
      cases b with
      | false =>
        unfold updateAndValidate at h
        simp only [hupdate] at h
        cases h
      | true =>
        have hrun : updateAndValidate W game parsingErrors hist fuel
            = validateLoop W game fuel parsingErrors
              (hist ++ [Call.RunCommand (updateCommand W game)]) := by
          unfold updateAndValidate
          simp only [hupdate]
        rw [hrun] at h ⊢
        obtain ⟨h', output', htrace, hlast, hinfo', hrev', hload'⟩ :=
          validateLoop_returned W game fuel _ _ value h
        refine ⟨h', output', htrace, ?_, hinfo', hrev', hload'⟩
        rcases hlast with rfl | hlast
        · exact Or.inl (by simp)
        · exact Or.inr hlast
  rcases subversionBranch_cases W game parsingErrors fuel with
    ⟨_, hstop⟩ | (h | ⟨command, _, h⟩)
  · rcases hstop with hstop | ⟨e, hstop⟩
    · rw [hempty] at hstop
      cases hstop
    · rw [hstop] at hret
      cases hret
  · rw [h] at hret ⊢
    exact hupd _ hret
  · rw [h] at hret ⊢
    exact hupd _ hret

/-! ## The claims -/

/-- C1. Rollback until valid, Subversion branch, non-empty address, every transport call
succeeding: when the validation fails in rounds `0 .. k-1` of the loop and succeeds in
round `k`, then with enough fuel the call returns the identifier read in round `k`,
appends to `parsingErrors` one entry per failed round, in the order of the rounds, entry
`i` made of the identifier read in round `i` and the loader's message, and the trace is
the set-up calls, `k` rounds that each end in one rollback command, `svn info` and the
validation that succeeds; the rollback command is issued exactly `k` times. -/
theorem UpdateMasterlist_rollback_until_valid (W : World) (game : Game)
    (parsingErrors : List Str) (fuel k : Nat) (output0 : Str)
    (output revision what : Nat → Str)
    (hURL : game.URL ≠ [])
    (hsvn : iends_with game.URL ".git".toList = false)
    (hinfo0 : RunCommand W [] (infoCommand W game) = .ok (true, output0))
    (hrev0 : GetRevision output0 ≠ none)
    (hupdate : succeeded (RunCommand W [Call.RunCommand (infoCommand W game)]
      (updateCommand W game)) = true)
    (hinfo : ∀ i, i ≤ k → RunCommand W (roundStart W game (setupCalls W game) i)
      (infoCommand W game) = .ok (true, output i))
    (hrev : ∀ i, i ≤ k → GetRevision (output i) = some (revision i))
    (hfail : ∀ i, i < k → W.LoadFile (roundStart W game (setupCalls W game) i
      ++ [Call.RunCommand (infoCommand W game)]) game.MasterlistPath = some (what i))
    (hroll : ∀ i, i < k → succeeded (RunCommand W (roundStart W game (setupCalls W game) i
      ++ [Call.RunCommand (infoCommand W game), Call.LoadFile game.MasterlistPath])
      (rollbackCommand W game)) = true)
    (hvalid : W.LoadFile (roundStart W game (setupCalls W game) k
      ++ [Call.RunCommand (infoCommand W game)]) game.MasterlistPath = none)
    (hfuel : k < fuel) :
    (UpdateMasterlist W game parsingErrors fuel).outcome = some (.returned (revision k)) ∧
    (UpdateMasterlist W game parsingErrors fuel).parsingErrors
      = parsingErrors ++ (List.range k).map (fun i => parsingError (revision i) (what i)) ∧
    (UpdateMasterlist W game parsingErrors fuel).trace
      = roundStart W game (setupCalls W game) k
        ++ [Call.RunCommand (infoCommand W game), Call.LoadFile game.MasterlistPath] ∧
    (UpdateMasterlist W game parsingErrors fuel).trace.count
      (Call.RunCommand (rollbackCommand W game)) = k := by
  rw [UpdateMasterlist_subversion W game parsingErrors fuel hsvn,
    subversionBranch_setup W game parsingErrors fuel output0 hURL hinfo0 hrev0 hupdate,
    validateLoop_rollback W game k fuel parsingErrors (setupCalls W game) output revision what
      hfuel hinfo hrev hfail hroll hvalid]
  refine ⟨rfl, rfl, rfl, ?_⟩
  have h1 := infoCommand_ne_rollbackCommand W game
  simp [List.count_append, count_roundStart, count_rollback_failedRound,
    count_rollback_setupCalls, List.count_cons, h1]

/-- The case `k = 2` in the sample world: revisions 44 and 43 do not parse, 42 does. -/
theorem UpdateMasterlist_rollback_until_valid_witness :
    (UpdateMasterlist (sampleWorld 2 0) sampleGame [] 3).outcome
      = some (.returned "42 (2013-01-01)".toList) ∧
    (UpdateMasterlist (sampleWorld 2 0) sampleGame [] 3).parsingErrors
      = ["Masterlist revision 44 (2013-01-03): yaml-cpp: error at line 3, column 1".toList,
         "Masterlist revision 43 (2013-01-02): yaml-cpp: error at line 3, column 1".toList] ∧
    (UpdateMasterlist (sampleWorld 2 0) sampleGame [] 3).trace.count
      (Call.RunCommand (rollbackCommand (sampleWorld 2 0) sampleGame)) = 2 :=
  have h := UpdateMasterlist_rollback_until_valid (sampleWorld 2 0) sampleGame [] 3 2
    (sampleInfo 0) sampleInfo sampleRevision
    (fun _ => "yaml-cpp: error at line 3, column 1".toList)
    (by decide) (by decide) (by rfl) (by decide) (by rfl)
    (fun i hi => by interval_cases i <;> rfl)
    (fun i hi => by interval_cases i <;> rfl)
    (fun i hi => by interval_cases i <;> rfl)
    (fun i hi => by interval_cases i <;> rfl)
    (by rfl) (by decide)
  ⟨h.1, h.2.1, h.2.2.2⟩

/-- C2 at a Git address. For the address `https://example.com/repo.git`, in every world
and with any fuel, control reaches the end of `UpdateMasterlist` without a `return`
statement, and no call of the run starts a child process or runs the YAML loader: nothing
is pulled, nothing is validated and no identifier is returned. -/
theorem UpdateMasterlist_git_never_validates (W : World) (parsingErrors : List Str)
    (fuel : Nat) :
    (UpdateMasterlist W gitGame parsingErrors fuel).outcome = some .fellOffEnd ∧
    ∀ c ∈ (UpdateMasterlist W gitGame parsingErrors fuel).trace,
      c.isRunCommand = false ∧ c.isLoadFile = false := by
  have hgit : iends_with gitGame.URL ".git".toList = true := by decide
  rw [UpdateMasterlist_git W gitGame parsingErrors fuel hgit]
  exact ⟨rfl, fun c hc => gitBranch_trace W gitGame parsingErrors c hc⟩

/-- A first pass that validates at once, as a run: the result, the untouched vector and
the four calls. -/
theorem first_pass_run (W : World) (game : Game) (parsingErrors : List Str)
    (fuel : Nat) (output0 output revision : Str)
    (hURL : game.URL ≠ [])
    (hsvn : iends_with game.URL ".git".toList = false)
    (hinfo0 : RunCommand W [] (infoCommand W game) = .ok (true, output0))
    (hrev0 : GetRevision output0 ≠ none)
    (hupdate : succeeded (RunCommand W [Call.RunCommand (infoCommand W game)]
      (updateCommand W game)) = true)
    (hinfo : RunCommand W (setupCalls W game) (infoCommand W game) = .ok (true, output))
    (hrev : GetRevision output = some revision)
    (hvalid : W.LoadFile (setupCalls W game ++ [Call.RunCommand (infoCommand W game)])
      game.MasterlistPath = none)
    (hfuel : 0 < fuel) :
    UpdateMasterlist W game parsingErrors fuel =
      ⟨some (.returned revision), parsingErrors,
        setupCalls W game
          ++ [Call.RunCommand (infoCommand W game), Call.LoadFile game.MasterlistPath]⟩ := by
  have hloop := validateLoop_rollback W game 0 fuel parsingErrors (setupCalls W game)
    (fun _ => output) (fun _ => revision) (fun _ => []) hfuel
    (fun i hi => by
      obtain rfl : i = 0 := by omega
      simpa [roundStart] using hinfo)
    (fun _ _ => hrev) (fun i hi => absurd hi (Nat.not_lt_zero i))
    (fun i hi => absurd hi (Nat.not_lt_zero i))
    (by simpa [roundStart] using hvalid)
  rw [UpdateMasterlist_subversion W game parsingErrors fuel hsvn,
    subversionBranch_setup W game parsingErrors fuel output0 hURL hinfo0 hrev0 hupdate, hloop]
  simp [roundStart]

/-- C3. Successful first pass, Subversion branch, non-empty address, with every command
line written out: when `<svn> info "<masterlist>"`, `<svn> update "<masterlist>"` and the
`<svn> info "<masterlist>"` of the first round exit with 0 and the document then parses,
the call returns the identifier read in that round and hands `parsingErrors` back as it
was passed (empty for an attempt that starts with the empty list); its calls are exactly
info, update, info and the YAML loader, so the command `<svn> update "<masterlist>"` is
issued exactly once, the command `<svn> update --revision PREV "<masterlist>"` not at
all, and no other command line is run. -/
theorem UpdateMasterlist_first_pass (W : World) (game : Game) (parsingErrors : List Str)
    (fuel : Nat) (output0 output revision : Str)
    (hURL : game.URL ≠ [])
    (hsvn : iends_with game.URL ".git".toList = false)
    (hinfo0 : RunCommand W []
      (W.g_path_svn ++ " info \"".toList ++ game.MasterlistPath ++ "\"".toList)
      = .ok (true, output0))
    (hrev0 : GetRevision output0 ≠ none)
    (hupdate : succeeded (RunCommand W
      [Call.RunCommand
        (W.g_path_svn ++ " info \"".toList ++ game.MasterlistPath ++ "\"".toList)]
      (W.g_path_svn ++ " update \"".toList ++ game.MasterlistPath ++ "\"".toList)) = true)
    (hinfo : RunCommand W
      [Call.RunCommand
        (W.g_path_svn ++ " info \"".toList ++ game.MasterlistPath ++ "\"".toList),
       Call.RunCommand
        (W.g_path_svn ++ " update \"".toList ++ game.MasterlistPath ++ "\"".toList)]
      (W.g_path_svn ++ " info \"".toList ++ game.MasterlistPath ++ "\"".toList)
      = .ok (true, output))
    (hrev : GetRevision output = some revision)
    (hvalid : W.LoadFile
      [Call.RunCommand
        (W.g_path_svn ++ " info \"".toList ++ game.MasterlistPath ++ "\"".toList),
       Call.RunCommand
        (W.g_path_svn ++ " update \"".toList ++ game.MasterlistPath ++ "\"".toList),
       Call.RunCommand
        (W.g_path_svn ++ " info \"".toList ++ game.MasterlistPath ++ "\"".toList)]
      game.MasterlistPath = none)
    (hfuel : 0 < fuel) :
    (UpdateMasterlist W game parsingErrors fuel).outcome = some (.returned revision) ∧
    (UpdateMasterlist W game parsingErrors fuel).parsingErrors = parsingErrors ∧
    (parsingErrors = [] → (UpdateMasterlist W game parsingErrors fuel).parsingErrors = []) ∧
    (UpdateMasterlist W game parsingErrors fuel).trace =
      [Call.RunCommand
        (W.g_path_svn ++ " info \"".toList ++ game.MasterlistPath ++ "\"".toList),
       Call.RunCommand
        (W.g_path_svn ++ " update \"".toList ++ game.MasterlistPath ++ "\"".toList),
       Call.RunCommand
        (W.g_path_svn ++ " info \"".toList ++ game.MasterlistPath ++ "\"".toList),
       Call.LoadFile game.MasterlistPath] ∧
    (UpdateMasterlist W game parsingErrors fuel).trace.count
      (Call.RunCommand
        (W.g_path_svn ++ " update \"".toList ++ game.MasterlistPath ++ "\"".toList)) = 1 ∧
    (UpdateMasterlist W game parsingErrors fuel).trace.count
      (Call.RunCommand
        (W.g_path_svn ++ " update --revision PREV \"".toList ++ game.MasterlistPath
          ++ "\"".toList)) = 0 := by
  have hrun := first_pass_run W game parsingErrors fuel output0 output revision hURL hsvn
    hinfo0 hrev0 hupdate hinfo hrev hvalid hfuel
  rw [hrun]
  refine ⟨rfl, rfl, fun h => h, rfl, ?_, ?_⟩
  · simp [setupCalls, infoCommand, updateCommand, List.count_cons]
  · simp [setupCalls, infoCommand, updateCommand, List.count_cons]

/-- The sample world in which revision 44 parses: the four calls of the run, with the one
`svn update` and no `svn update --revision PREV`. -/
theorem UpdateMasterlist_first_pass_witness :
    (UpdateMasterlist (sampleWorld 0 0) sampleGame [] 1).outcome
      = some (.returned "44 (2013-01-03)".toList) ∧
    (UpdateMasterlist (sampleWorld 0 0) sampleGame [] 1).parsingErrors = [] ∧
    (UpdateMasterlist (sampleWorld 0 0) sampleGame [] 1).trace =
      [Call.RunCommand "svn info \"Skyrim/masterlist.yaml\"".toList,
       Call.RunCommand "svn update \"Skyrim/masterlist.yaml\"".toList,
       Call.RunCommand "svn info \"Skyrim/masterlist.yaml\"".toList,
       Call.LoadFile "Skyrim/masterlist.yaml".toList] ∧
    (UpdateMasterlist (sampleWorld 0 0) sampleGame [] 1).trace.count
      (Call.RunCommand "svn update \"Skyrim/masterlist.yaml\"".toList) = 1 ∧
    (UpdateMasterlist (sampleWorld 0 0) sampleGame [] 1).trace.count
      (Call.RunCommand "svn update --revision PREV \"Skyrim/masterlist.yaml\"".toList) = 0 :=
  have h := UpdateMasterlist_first_pass (sampleWorld 0 0) sampleGame [] 1
    (sampleInfo 0) (sampleInfo 0) (sampleRevision 0)
    (by decide) (by decide) (by rfl) (by decide) (by rfl) (by rfl) (by rfl) (by rfl)
    (by decide)
  ⟨h.1, h.2.1, h.2.2.2.1, h.2.2.2.2.1, h.2.2.2.2.2⟩

/-- C4. Fatal update failure, for every address: when the run issues the update command
after the calls `hist` and the process started then exits with a non-zero code and the
output `output`, the call ends with `error(subversion_error, "Subversion could not update
the masterlist. Details: " + output)`, `parsingErrors` is untouched, and the trace holds
no rollback command and no run of the YAML loader.  (The Git branch starts no child
process, so there the premise never holds.) -/
theorem UpdateMasterlist_update_failure (W : World) (game : Game) (parsingErrors : List Str)
    (fuel : Nat) (hist rest : List Call) (output : Str)
    (hcall : (UpdateMasterlist W game parsingErrors fuel).trace
      = hist ++ Call.RunCommand (updateCommand W game) :: rest)
    (hfail : RunCommand W hist (updateCommand W game) = .ok (false, output)) :
    (UpdateMasterlist W game parsingErrors fuel).outcome
      = some (.threw (.error .subversion_error
          ("Subversion could not update the masterlist. Details: ".toList ++ output))) ∧
    (UpdateMasterlist W game parsingErrors fuel).parsingErrors = parsingErrors ∧
    Call.RunCommand (rollbackCommand W game)
      ∉ (UpdateMasterlist W game parsingErrors fuel).trace ∧
    ∀ c ∈ (UpdateMasterlist W game parsingErrors fuel).trace, c.isLoadFile = false := by
  have hmem : Call.RunCommand (updateCommand W game)
      ∈ (UpdateMasterlist W game parsingErrors fuel).trace := by
    rw [hcall]; simp
  have hiu := infoCommand_ne_updateCommand W game
  have hir := infoCommand_ne_rollbackCommand W game
  have hur := updateCommand_ne_rollbackCommand W game
  -- the update command is not among the calls of the loop
  have hloop : ∀ t : List Call, (∀ c ∈ t, c = Call.RunCommand (infoCommand W game) ∨
      c = Call.LoadFile game.MasterlistPath ∨ c = Call.RunCommand (rollbackCommand W game)) →
      Call.RunCommand (updateCommand W game) ∉ t := by
    intro t ht hu
    rcases ht _ hu with h | h | h
    · exact hiu (Call.RunCommand.inj h).symm
    · cases h
    · exact hur (Call.RunCommand.inj h)
  -- what follows once the update is reached after the calls `h0`
  have hreach : ∀ h0 : List Call, Call.RunCommand (updateCommand W game) ∉ h0 →
      Call.RunCommand (rollbackCommand W game) ∉ h0 → (∀ c ∈ h0, c.isLoadFile = false) →
      UpdateMasterlist W game parsingErrors fuel
        = updateAndValidate W game parsingErrors h0 fuel →
      (UpdateMasterlist W game parsingErrors fuel).outcome
        = some (.threw (.error .subversion_error
            ("Subversion could not update the masterlist. Details: ".toList ++ output))) ∧
      (UpdateMasterlist W game parsingErrors fuel).parsingErrors = parsingErrors ∧
      Call.RunCommand (rollbackCommand W game)
        ∉ (UpdateMasterlist W game parsingErrors fuel).trace ∧
      ∀ c ∈ (UpdateMasterlist W game parsingErrors fuel).trace, c.isLoadFile = false := by
    intro h0 hu0 hr0 hl0 heq
    obtain ⟨t, ht, htmem⟩ := updateAndValidate_trace W game parsingErrors h0 fuel
    have hhist : hist = h0 :=
      split_unique _ h0 t hist rest hu0 (hloop t htmem) (by rw [← hcall, heq, ht])
    subst hhist
    rw [heq, updateAndValidate_failed W game parsingErrors hist fuel output hfail]
    refine ⟨rfl, rfl, ?_, ?_⟩
    · simp only [List.mem_append, List.mem_singleton, not_or]
      exact ⟨hr0, fun h => hur (Call.RunCommand.inj h).symm⟩
    · intro c hc
      simp only [List.mem_append, List.mem_singleton] at hc
      rcases hc with hc | rfl
      · exact hl0 c hc
      · rfl
  by_cases hgit : iends_with game.URL ".git".toList = true
  · rw [UpdateMasterlist_git W game parsingErrors fuel hgit] at hmem
    have := (gitBranch_trace W game parsingErrors _ hmem).1
    simp [Call.isRunCommand] at this
  · have hsvn : iends_with game.URL ".git".toList = false := by
      simpa using hgit
    have heq := UpdateMasterlist_subversion W game parsingErrors fuel hsvn
    rcases subversionBranch_cases W game parsingErrors fuel with
      ⟨h | ⟨command, hcommand, h⟩, _⟩ | (h | ⟨command, hcommand, h⟩)
    · rw [heq, h] at hmem
      simp only [List.mem_singleton] at hmem
      exact absurd (Call.RunCommand.inj hmem).symm hiu
    · rw [heq, h] at hmem
      simp only [List.mem_cons, List.mem_singleton, List.not_mem_nil, or_false] at hmem
      rcases hmem with hm | hm
      · exact absurd (Call.RunCommand.inj hm).symm hiu
      · exact absurd (Call.RunCommand.inj hm).symm
          (checkoutCommand_ne_updateCommand W game command hcommand)
    · refine hreach [Call.RunCommand (infoCommand W game)] ?_ ?_ ?_ (heq.trans h)
      · simp only [List.mem_singleton]
        exact fun hm => hiu (Call.RunCommand.inj hm).symm
      · simp only [List.mem_singleton]
        exact fun hm => hir (Call.RunCommand.inj hm).symm
      · intro c hc
        simp only [List.mem_singleton] at hc
        subst hc
        rfl
    · have hcu := checkoutCommand_ne_updateCommand W game command hcommand
      have hcr := checkoutCommand_ne_rollbackCommand W game command hcommand
      refine hreach [Call.RunCommand (infoCommand W game), Call.RunCommand command]
        ?_ ?_ ?_ (heq.trans h)
      · simp only [List.mem_cons, List.mem_singleton, List.not_mem_nil, or_false, not_or]
        exact ⟨fun hm => hiu (Call.RunCommand.inj hm).symm,
          fun hm => hcu (Call.RunCommand.inj hm).symm⟩
      · simp only [List.mem_cons, List.mem_singleton, List.not_mem_nil, or_false, not_or]
        exact ⟨fun hm => hir (Call.RunCommand.inj hm).symm,
          fun hm => hcr (Call.RunCommand.inj hm).symm⟩
      · intro c hc
        simp only [List.mem_cons, List.mem_singleton, List.not_mem_nil, or_false] at hc
        rcases hc with rfl | rfl <;> rfl

/-- The sample world in which `svn update` exits with code 1. -/
theorem UpdateMasterlist_update_failure_witness :
    (UpdateMasterlist (sampleWorld 2 1) sampleGame [] 3).outcome
      = some (.threw (.error .subversion_error
          ("Subversion could not update the masterlist. Details: "
            ++ "svn: E170013: Unable to connect to a repository").toList)) ∧
    Call.RunCommand (rollbackCommand (sampleWorld 2 1) sampleGame)
      ∉ (UpdateMasterlist (sampleWorld 2 1) sampleGame [] 3).trace :=
  have h := UpdateMasterlist_update_failure (sampleWorld 2 1) sampleGame [] 3
    [Call.RunCommand (infoCommand (sampleWorld 2 1) sampleGame)] []
    "svn: E170013: Unable to connect to a repository".toList (by rfl) (by rfl)
  ⟨h.1, h.2.2.1⟩

/-- C5. No-remote return value: for an empty address, when the child process of
`svn info` ran (whatever its exit code) and `GetRevision` yields an identifier from its
output, `UpdateMasterlist` returns that identifier if it is non-empty and `"N/A"` if it is
empty, for any fuel, and hands `parsingErrors` back unchanged. -/
theorem UpdateMasterlist_no_remote_value (W : World) (game : Game)
    (parsingErrors : List Str) (fuel exitCode : Nat) (pipe revision : Str)
    (hURL : game.URL = [])
    (hproc : W.process [] (infoCommand W game) = .finished exitCode pipe)
    (hrev : GetRevision (pipe.take BUFSIZE) = some revision) :
    (UpdateMasterlist W game parsingErrors fuel).outcome
      = some (.returned (if revision = [] then "N/A".toList else revision)) ∧
    (UpdateMasterlist W game parsingErrors fuel).parsingErrors = parsingErrors := by
  have hsvn : iends_with game.URL ".git".toList = false := by rw [hURL]; decide
  have hrun : RunCommand W [] (infoCommand W game)
      = .ok (exitCode == 0, pipe.take BUFSIZE) := by
    simp only [RunCommand, hproc]
  rw [UpdateMasterlist_subversion W game parsingErrors fuel hsvn]
  unfold subversionBranch
  simp only [hrun, hrev, hURL, List.isEmpty_nil, if_true]
  cases revision with
  | nil => exact ⟨rfl, rfl⟩
  | cons c cs => exact ⟨rfl, rfl⟩

/-- The sample world with no address configured: the working copy is at revision 44. -/
theorem UpdateMasterlist_no_remote_value_witness :
    (UpdateMasterlist (sampleWorld 2 1) offlineGame [] 0).outcome
      = some (.returned "44 (2013-01-03)".toList) ∧
    (UpdateMasterlist (sampleWorld 2 1) offlineGame [] 0).parsingErrors = [] :=
  UpdateMasterlist_no_remote_value (sampleWorld 2 1) offlineGame [] 0 0
    (sampleInfo 0) "44 (2013-01-03)".toList (by rfl) (by rfl) (by rfl)

/-- C6 as stated fails: with no address configured, the run in the sample world starts
the child process `svn info "Skyrim/masterlist.yaml"` before it returns. -/
theorem UpdateMasterlist_no_remote_runs_info :
    offlineGame.URL = [] ∧
    (UpdateMasterlist (sampleWorld 0 0) offlineGame [] 0).outcome
      = some (.returned "44 (2013-01-03)".toList) ∧
    Call.RunCommand "svn info \"Skyrim/masterlist.yaml\"".toList
      ∈ (UpdateMasterlist (sampleWorld 0 0) offlineGame [] 0).trace := by
  decide

/-- C6, amended. For an empty address, in every world and however the call ends, the
only call `UpdateMasterlist` makes is the one `svn info` command on the masterlist: no
checkout, update or rollback command, no validation and no call of the Git library. -/
theorem UpdateMasterlist_no_remote_calls (W : World) (game : Game)
    (parsingErrors : List Str) (fuel : Nat) (hURL : game.URL = []) :
    (UpdateMasterlist W game parsingErrors fuel).trace
      = [Call.RunCommand (infoCommand W game)] := by
  have hsvn : iends_with game.URL ".git".toList = false := by rw [hURL]; decide
  rw [UpdateMasterlist_subversion W game parsingErrors fuel hsvn]
  unfold subversionBranch
  simp only [hURL, List.isEmpty_nil, if_true]
  split
  · rfl
  · split
    · rfl
    · split <;> rfl

/-- The sample world with no address configured: one `svn info` and nothing else. -/
theorem UpdateMasterlist_no_remote_calls_witness :
    (UpdateMasterlist (sampleWorld 2 1) offlineGame [] 0).trace
      = [Call.RunCommand "svn info \"Skyrim/masterlist.yaml\"".toList] :=
  UpdateMasterlist_no_remote_calls (sampleWorld 2 1) offlineGame [] 0 (by rfl)

/-- C7 as stated fails: the address `https://example.com/REPO.GIT` does not end with the
suffix `.git`, yet the run takes the Git branch (its first call asks whether the `.git`
folder exists) and not the Subversion branch. -/
theorem UpdateMasterlist_upper_case_takes_git :
    ¬ (".git".toList <:+ upperCaseGame.URL) ∧
    UpdateMasterlist (sampleWorld 0 0) upperCaseGame [] 1
      = gitBranch (sampleWorld 0 0) upperCaseGame [] ∧
    UpdateMasterlist (sampleWorld 0 0) upperCaseGame [] 1
      ≠ subversionBranch (sampleWorld 0 0) upperCaseGame [] 1 ∧
    (UpdateMasterlist (sampleWorld 0 0) upperCaseGame [] 1).trace.head?
      = some (Call.fs_exists "Skyrim/.git".toList) := by
  decide

/-- C7, amended. `UpdateMasterlist` takes the Git branch exactly when the address ends in
`.git` compared without regard to case (`.git`, `.GIT`, `.Git`, ...), and the Subversion
branch for every other address. -/
theorem UpdateMasterlist_backend_selection (W : World) (game : Game)
    (parsingErrors : List Str) (fuel : Nat) :
    (UpdateMasterlist W game parsingErrors fuel = gitBranch W game parsingErrors
      ↔ EndsInDotGit game.URL) ∧
    (UpdateMasterlist W game parsingErrors fuel = subversionBranch W game parsingErrors fuel
      ↔ ¬ EndsInDotGit game.URL) := by
  have hne := gitBranch_ne_subversionBranch W game parsingErrors fuel
  by_cases hgit : iends_with game.URL ".git".toList = true
  · have hE := (iends_with_git_iff game.URL).1 hgit
    rw [UpdateMasterlist_git W game parsingErrors fuel hgit]
    exact ⟨⟨fun _ => hE, fun _ => rfl⟩, ⟨fun h => absurd h hne, fun h => absurd hE h⟩⟩
  · have hE : ¬ EndsInDotGit game.URL := fun h => hgit ((iends_with_git_iff game.URL).2 h)
    have hsvn : iends_with game.URL ".git".toList = false := by simpa using hgit
    rw [UpdateMasterlist_subversion W game parsingErrors fuel hsvn]
    exact ⟨⟨fun h => absurd h.symm hne, fun h => absurd h hE⟩, ⟨fun _ => hE, fun _ => rfl⟩⟩

/-- The two addresses named by the specification: the one ending in `.git` takes the Git
branch, the Subversion one takes the Subversion branch. -/
theorem UpdateMasterlist_backend_examples (W : World) (parsingErrors : List Str)
    (fuel : Nat) :
    UpdateMasterlist W gitGame parsingErrors fuel = gitBranch W gitGame parsingErrors ∧
    UpdateMasterlist W sampleGame parsingErrors fuel
      = subversionBranch W sampleGame parsingErrors fuel :=
  ⟨UpdateMasterlist_git W gitGame parsingErrors fuel (by decide),
    UpdateMasterlist_subversion W sampleGame parsingErrors fuel (by decide)⟩

/-- C8. Revision-probe format: in a buffer shorter than `npos` where the last occurrence
of `"Revision: "` is followed by `r`, free of newlines, and a newline, and the first
`"Last Changed Date: "` from that newline on is followed by `d`, free of spaces, and a
space, `GetRevision` returns `r ++ " (" ++ d ++ ")"`. -/
theorem GetRevision_format (a r b d c : Str)
    (hsize : (a ++ "Revision: ".toList ++ r ++ ['\n'] ++ b ++ "Last Changed Date: ".toList
      ++ d ++ [' '] ++ c).length < npos)
    (hlast : ∀ x y, a ++ "Revision: ".toList ++ r ++ ['\n'] ++ b
      ++ "Last Changed Date: ".toList ++ d ++ [' '] ++ c = x ++ "Revision: ".toList ++ y →
      x.length ≤ a.length)
    (hr : '\n' ∉ r)
    (hfirst : ∀ x y, ['\n'] ++ b ++ "Last Changed Date: ".toList ++ d ++ [' '] ++ c
      = x ++ "Last Changed Date: ".toList ++ y → (['\n'] ++ b).length ≤ x.length)
    (hd : ' ' ∉ d) :
    GetRevision (a ++ "Revision: ".toList ++ r ++ ['\n'] ++ b ++ "Last Changed Date: ".toList
      ++ d ++ [' '] ++ c) = some (r ++ " (".toList ++ d ++ ")".toList) := by
  generalize hR : "Revision: ".toList = R at *
  generalize hL : "Last Changed Date: ".toList = L at *
  have hRl : R.length = 10 := by rw [← hR]; rfl
  have hLl : L.length = 19 := by rw [← hL]; rfl
  have hRn : '\n' ∉ R := by rw [← hR]; decide
  set s := a ++ R ++ r ++ ['\n'] ++ b ++ L ++ d ++ [' '] ++ c with hs
  have hslen : s.length = a.length + 10 + r.length + 1 + b.length + 19 + d.length + 1 + c.length := by
    simp [hs, hRl, hLl]
    omega
  have hnpos : npos = 18446744073709551615 := by norm_num [npos, SIZE_RANGE]
  -- the label
  have h1 : rfind s R = a.length := by
    have : s = a ++ R ++ (r ++ ['\n'] ++ b ++ L ++ d ++ [' '] ++ c) := by simp [hs]
    rw [this]
    exact rfind_at a _ R (fun x' y' h => hlast x' y' (by rw [← h, hs]; simp))
  -- the end of the line
  have h2 : find s ['\n'] a.length = a.length + 10 + r.length := by
    have : s = a ++ ((R ++ r) ++ ['\n'] ++ (b ++ L ++ d ++ [' '] ++ c)) := by simp [hs]
    rw [this, find_at a (R ++ r) _ ['\n']
      (char_first '\n' (R ++ r) _ (by simp [hRn, hr]))]
    simp [hRl]; omega
  have h3 : substr s (a.length + 10) r.length = some r := by
    have : s = (a ++ R) ++ (r ++ (['\n'] ++ b ++ L ++ d ++ [' '] ++ c)) := by simp [hs]
    have hl : a.length + 10 = (a ++ R).length := by simp [hRl]
    rw [this, hl]
    exact substr_at _ _ _
  -- the date label
  have h4 : find s L (a.length + 10 + r.length) = a.length + 10 + r.length + 1 + b.length := by
    have : s = (a ++ R ++ r) ++ ((['\n'] ++ b) ++ L ++ (d ++ [' '] ++ c)) := by simp [hs]
    have hl : a.length + 10 + r.length = (a ++ R ++ r).length := by simp [hRl]; omega
    rw [this, hl, find_at (a ++ R ++ r) (['\n'] ++ b) _ L
      (fun x' y' h => hfirst x' y' (by rw [← h]; simp))]
    simp; omega
  have h5 : find s [' '] (a.length + 10 + r.length + 1 + b.length + 19)
      = a.length + 10 + r.length + 1 + b.length + 19 + d.length := by
    have : s = (a ++ R ++ r ++ ['\n'] ++ b ++ L) ++ (d ++ [' '] ++ c) := by simp [hs]
    have hl : a.length + 10 + r.length + 1 + b.length + 19
        = (a ++ R ++ r ++ ['\n'] ++ b ++ L).length := by simp [hRl, hLl]; omega
    rw [this, hl, find_at _ d _ [' '] (char_first ' ' d _ hd)]
  have h6 : substr s (a.length + 10 + r.length + 1 + b.length + 19) d.length = some d := by
    have : s = (a ++ R ++ r ++ ['\n'] ++ b ++ L) ++ (d ++ ([' '] ++ c)) := by simp [hs]
    have hl : a.length + 10 + r.length + 1 + b.length + 19
        = (a ++ R ++ r ++ ['\n'] ++ b ++ L).length := by simp [hRl, hLl]; omega
    rw [this, hl]
    exact substr_at _ _ _
  -- size_t arithmetic stays below the wrap
  have ha1 : wadd a.length 10 = a.length + 10 := by
    simp only [wadd, SIZE_RANGE]; omega
  have ha2 : wsub (wsub (a.length + 10 + r.length) a.length) 10 = r.length := by
    simp only [wsub, SIZE_RANGE]; omega
  have ha3 : wadd (a.length + 10 + r.length + 1 + b.length) 19
      = a.length + 10 + r.length + 1 + b.length + 19 := by
    simp only [wadd, SIZE_RANGE]; omega
  have ha4 : wsub (wsub (a.length + 10 + r.length + 1 + b.length + 19 + d.length)
      (a.length + 10 + r.length + 1 + b.length)) 19 = d.length := by
    simp only [wsub, SIZE_RANGE]; omega
  have hne : a.length ≠ npos := by omega
  unfold GetRevision
  simp only [hR, hL, h1, if_neg hne, h2, ha1, ha2, h3, h4, ha3, h5, ha4, h6]

/-- The buffer given as an example by the specification. -/
theorem GetRevision_format_witness :
    GetRevision "Revision: 42\n...Last Changed Date: 2013-01-01 ...".toList
      = some "42 (2013-01-01)".toList :=
  GetRevision_format [] "42".toList "...".toList "2013-01-01".toList "...".toList
    (by decide)
    (fun x y h => by
      obtain ⟨hl, hp⟩ := occurs_drop _ _ x y h
      have key : ∀ j, j ≤ 50 → "Revision: ".toList.isPrefixOf
          (("Revision: 42\n...Last Changed Date: 2013-01-01 ...".toList).drop j) = true →
          j ≤ 0 := by decide
      exact key x.length (le_trans hl (by decide)) hp)
    (by decide)
    (fun x y h => by
      obtain ⟨hl, hp⟩ := occurs_drop _ _ x y h
      have key : ∀ j, j ≤ 40 → "Last Changed Date: ".toList.isPrefixOf
          (("\n...Last Changed Date: 2013-01-01 ...".toList).drop j) = true →
          4 ≤ j := by decide
      exact key x.length (le_trans hl (by decide)) hp)
    (by decide)

/-- C9. Revision-probe on a missing label: for a buffer in which `"Revision: "` does not
occur, `GetRevision` returns the empty string, and not the `std::out_of_range` error. -/
theorem GetRevision_absent (buffer : Str)
    (h : ∀ x y, buffer ≠ x ++ "Revision: ".toList ++ y) : GetRevision buffer = some [] := by
  unfold GetRevision
  rw [rfind_absent buffer _ h]
  simp

/-- The message of `svn info` outside a working copy has no `Revision: ` label. -/
theorem GetRevision_absent_witness :
    GetRevision "svn: E155007: not a working copy".toList = some [] :=
  GetRevision_absent "svn: E155007: not a working copy".toList
    (fun x y h => by
      obtain ⟨hl, hp⟩ := occurs_drop _ _ x y h
      have key : ∀ j, j ≤ 32 → "Revision: ".toList.isPrefixOf
          (("svn: E155007: not a working copy".toList).drop j) = true → False := by decide
      exact key x.length (le_trans hl (by decide)) hp)

/-- For an address ending in `.git`, when the `.git` folder exists and the buffer of the
recorded URL is not the buffer of the game's address, the calls of `UpdateMasterlist` are
the existence test, `git_repository_open`, `git_remote_load` of `origin`,
`git_remote_url`, `git_remote_set_url` with the game's address, `git_remote_free` and
`git_repository_free`; then control reaches the end of the function. -/
theorem gitBranch_existing_repository (W : World) (game : Game)
    (parsingErrors : List Str) (fuel : Nat)
    (hgit : iends_with game.URL ".git".toList = true)
    (hexists : W.fs_exists [] (W.path_append (W.parent_path game.MasterlistPath)
      ".git".toList) = true)
    (hbuffers : ∀ hist, W.git_remote_url hist ≠ W.c_str hist) :
    UpdateMasterlist W game parsingErrors fuel =
      ⟨some .fellOffEnd, parsingErrors,
        [Call.fs_exists (W.path_append (W.parent_path game.MasterlistPath) ".git".toList),
          Call.git_repository_open (W.parent_path game.MasterlistPath),
          Call.git_remote_load "origin".toList,
          Call.git_remote_url,
          Call.git_remote_set_url game.URL,
          Call.git_remote_free,
          Call.git_repository_free]⟩ := by
  rw [UpdateMasterlist_git W game parsingErrors fuel hgit]
  unfold gitBranch
  simp only [hexists, if_true, bne_iff_ne, ne_eq, hbuffers, not_false_eq_true]
  rfl

/-- C10 at a drifted remote. In the sample world, where the `.git` folder exists, the run
for the address `https://example.com/repo.git` makes exactly these calls, with any fuel:
the existence test, `git_repository_open`, `git_remote_load` of `origin`,
`git_remote_url`, `git_remote_set_url` with the game's address on the loaded remote
object, `git_remote_free`, `git_repository_free`; then control reaches the end of the
function.  The remote object is changed and released; no call saves it to the repository
and no call pulls. -/
theorem UpdateMasterlist_git_existing_repository (parsingErrors : List Str) (fuel : Nat) :
    UpdateMasterlist (sampleWorld 0 0) gitGame parsingErrors fuel =
      ⟨some .fellOffEnd, parsingErrors,
        [Call.fs_exists "Skyrim/.git".toList,
          Call.git_repository_open "Skyrim".toList,
          Call.git_remote_load "origin".toList,
          Call.git_remote_url,
          Call.git_remote_set_url "https://example.com/repo.git".toList,
          Call.git_remote_free,
          Call.git_repository_free]⟩ :=
  gitBranch_existing_repository (sampleWorld 0 0) gitGame parsingErrors fuel
    (by decide) (by rfl) (fun _ => by simp [sampleWorld])

/-! ## `GetRevision` on buffers without a date label -/

theorem rfindFrom_occurs (pat x y : Str) (i : Nat) : rfindFrom pat (x ++ pat ++ y) i ≠ none := by
  induction x generalizing i with
  | nil =>
    have hp : pat.isPrefixOf ([] ++ pat ++ y) = true :=
      (isPrefixOf_true_iff _ _).2 ⟨y, by simp⟩
    cases hl : ([] ++ pat ++ y : Str) with
    | nil => rw [hl] at hp; simp [rfindFrom, hp]
    | cons c cs =>
      rw [hl] at hp
      cases hr : rfindFrom pat cs (i + 1) <;> simp [rfindFrom, hr, hp]
  | cons c x ih =>
    have hunf : rfindFrom pat (c :: x ++ pat ++ y) i =
        match rfindFrom pat (x ++ pat ++ y) (i + 1) with
        | some p => some p
        | none => if pat.isPrefixOf (c :: (x ++ pat ++ y)) then some i else none := rfl
    rw [hunf]
    cases hr : rfindFrom pat (x ++ pat ++ y) (i + 1) with
    | none => exact absurd hr (ih (i + 1))
    | some p => simp

/-- Where `rfind` finds the pattern, the pattern fits into the string. -/
theorem rfind_fits (s pat x y : Str) (h : s = x ++ pat ++ y) :
    rfind s pat + pat.length ≤ s.length := by
  unfold rfind
  cases hr : rfindFrom pat s 0 with
  | none => exact absurd hr (h ▸ rfindFrom_occurs pat x y 0)
  | some p =>
    obtain ⟨x', y', hs, hp⟩ := rfindFrom_some pat s 0 p hr
    rw [hs, hp]
    simp only [Option.getD_some, List.length_append]
    omega

/-- The member `find` either gives `npos` or a place where the pattern fits into the
string, at or after the starting position. -/
theorem find_fits (s pat : Str) (pos : Nat) :
    find s pat pos = npos ∨
      (pos ≤ find s pat pos ∧ find s pat pos + pat.length ≤ s.length ∧
        ∃ x y, s = x ++ pat ++ y ∧ x.length = find s pat pos) := by
  unfold find
  split
  · exact Or.inl rfl
  · rename_i hpos
    cases hf : findFrom pat (s.drop pos) pos with
    | none => exact Or.inl rfl
    | some p =>
      right
      obtain ⟨x, y, hs, hp⟩ := findFrom_some pat (s.drop pos) pos p hf
      have hlen : (s.drop pos).length = x.length + pat.length + y.length := by
        rw [hs]
        simp only [List.length_append]
      rw [List.length_drop] at hlen
      have hsplit : s = (s.take pos ++ x) ++ pat ++ y :=
        calc s = s.take pos ++ s.drop pos := (List.take_append_drop pos s).symm
          _ = (s.take pos ++ x) ++ pat ++ y := by rw [hs]; simp only [List.append_assoc]
      have htake : (s.take pos).length = pos := by
        rw [List.length_take]
        omega
      refine ⟨?_, ?_, s.take pos ++ x, y, hsplit, ?_⟩
      · simp only [Option.getD_some, hp]
        omega
      · simp only [Option.getD_some, hp]
        omega
      · simp only [Option.getD_some, hp, List.length_append, htake]

theorem findFrom_char_eq (ch : Char) (l : Str) (i : Nat) :
    findFrom [ch] l i
      = if ch ∈ l then some (i + (l.takeWhile (· != ch)).length) else none := by
  induction l generalizing i with
  | nil => simp [findFrom, List.isPrefixOf]
  | cons c cs ih =>
    by_cases hc : ch = c
    · subst hc
      simp [findFrom, List.isPrefixOf, List.takeWhile_cons]
    · have hc' : c ≠ ch := fun h => hc h.symm
      have hpre : List.isPrefixOf [ch] (c :: cs) = false := by
        simp [List.isPrefixOf, hc]
      have htw : (c :: cs).takeWhile (· != ch) = c :: cs.takeWhile (· != ch) := by
        simp [List.takeWhile_cons, hc']
      have hmem : (ch ∈ c :: cs) ↔ ch ∈ cs := by simp [hc]
      rw [findFrom, hpre, htw, ih]
      by_cases hcs : ch ∈ cs
      · rw [if_pos hcs, if_pos (hmem.2 hcs)]
        simp only [Bool.false_eq_true, if_false, List.length_cons, Option.some.injEq]
        omega
      · rw [if_neg hcs, if_neg (fun h => hcs (hmem.1 h))]
        simp

theorem take_length_takeWhile (p : Char → Bool) (l : Str) :
    l.take (l.takeWhile p).length = l.takeWhile p := by
  induction l with
  | nil => simp
  | cons c cs ih =>
    by_cases hc : p c = true
    · simp [List.takeWhile_cons, hc, ih]
    · simp [List.takeWhile_cons, hc]

theorem length_takeWhile_le_length (p : Char → Bool) (l : Str) :
    (l.takeWhile p).length ≤ l.length := by
  induction l with
  | nil => simp
  | cons c cs ih =>
    by_cases hc : p c = true
    · simp [List.takeWhile_cons, hc, ih]
    · simp [List.takeWhile_cons, hc]

theorem takeWhile_of_not_mem (ch : Char) (l : Str) (h : ch ∉ l) :
    l.takeWhile (· != ch) = l := by
  induction l with
  | nil => simp
  | cons c cs ih =>
    have hc : c ≠ ch := fun hc => h (by simp [hc])
    have hcs : ch ∉ cs := fun hm => h (List.mem_cons_of_mem _ hm)
    simp [List.takeWhile_cons, hc, ih hcs]

/-- Text cut by `substr` from `pos` with the count `find(ch, pos) - pos`, computed on
`size_t`: the characters from `pos` up to the first `ch`, or up to the end. -/
theorem substr_until (s : Str) (ch : Char) (pos : Nat) (hpos : pos ≤ s.length)
    (hsize : s.length < npos) :
    substr s pos (wsub (find s [ch] pos) pos) = some ((s.drop pos).takeWhile (· != ch)) := by
  have hnpos : npos = 18446744073709551615 := by norm_num [npos, SIZE_RANGE]
  have hlen : (s.drop pos).length = s.length - pos := List.length_drop pos s
  have hk : ((s.drop pos).takeWhile (· != ch)).length ≤ (s.drop pos).length :=
    length_takeWhile_le_length _ _
  unfold substr find
  rw [if_neg (by omega), if_neg (by omega), findFrom_char_eq]
  by_cases hmem : ch ∈ s.drop pos
  · rw [if_pos hmem]
    have hw : wsub (pos + ((s.drop pos).takeWhile (· != ch)).length) pos
        = ((s.drop pos).takeWhile (· != ch)).length := by
      simp only [wsub, SIZE_RANGE]
      omega
    simp only [Option.getD_some, hw, take_length_takeWhile]
  · rw [if_neg hmem]
    have hw : (s.drop pos).length ≤ wsub npos pos := by
      simp only [wsub, SIZE_RANGE]
      omega
    simp only [Option.getD_none, List.take_of_length_le hw, takeWhile_of_not_mem ch _ hmem]

/-- A search for one character may start after a stretch that does not hold it. -/
theorem find_skip (s : Str) (ch : Char) (pos n : Nat) (hn : pos + n ≤ s.length)
    (hno : ch ∉ (s.drop pos).take n) : find s [ch] pos = find s [ch] (pos + n) := by
  have hsplit : s.drop pos = (s.drop pos).take n ++ s.drop (pos + n) := by
    rw [← List.drop_drop, List.take_append_drop]
  have hlen : ((s.drop pos).take n).length = n := by
    rw [List.length_take, List.length_drop]
    omega
  have hall : ∀ c ∈ (s.drop pos).take n, (c != ch) = true := by
    intro c hc
    simp only [bne_iff_ne, ne_eq]
    exact fun h => hno (h ▸ hc)
  have htw : (s.drop pos).takeWhile (· != ch)
      = (s.drop pos).take n ++ (s.drop (pos + n)).takeWhile (· != ch) := by
    conv_lhs => rw [hsplit]
    exact List.takeWhile_append_of_pos hall
  have hmem : ch ∈ s.drop pos ↔ ch ∈ s.drop (pos + n) := by
    conv_lhs => rw [hsplit]
    simp only [List.mem_append, hno, false_or]
  unfold find
  rw [if_neg (by omega), if_neg (by omega), findFrom_char_eq, findFrom_char_eq, htw]
  by_cases hm : ch ∈ s.drop (pos + n)
  · rw [if_pos hm, if_pos (hmem.2 hm)]
    simp only [Option.getD_some, List.length_append, hlen]
    omega
  · rw [if_neg hm, if_neg (fun h => hm (hmem.1 h))]

/-- C11. `GetRevision` is not total. For a buffer shorter than `npos`, with `size_t`
arithmetic modulo `2 ^ 64`: it throws `std::out_of_range` exactly when the buffer holds
`"Revision: "` and has fewer than 18 characters; every other buffer gives a string; and
when the last `"Revision: "` is followed by no `"Last Changed Date: "` and the buffer has
at least 18 characters, the result is the text after the label up to the first newline
(or the end), then `" ("`, then the buffer's text from index 18 up to the first space at
or after index 18 (or the end), then `")"`. -/
theorem GetRevision_out_of_range (buffer : Str) (hsize : buffer.length < npos) :
    (GetRevision buffer = none ↔
      (∃ x y, buffer = x ++ "Revision: ".toList ++ y) ∧ buffer.length < 18) ∧
    (¬ ((∃ x y, buffer = x ++ "Revision: ".toList ++ y) ∧ buffer.length < 18) →
      ∃ result, GetRevision buffer = some result) ∧
    (∀ a y, buffer = a ++ "Revision: ".toList ++ y →
      (∀ x' y', buffer = x' ++ "Revision: ".toList ++ y' → x'.length ≤ a.length) →
      (∀ x' y', buffer = x' ++ "Last Changed Date: ".toList ++ y' →
        x'.length < a.length + 10) →
      18 ≤ buffer.length →
      GetRevision buffer = some (y.takeWhile (· != '\n') ++ " (".toList
        ++ (buffer.drop 18).takeWhile (· != ' ') ++ ")".toList)) := by
  generalize hR : "Revision: ".toList = R
  generalize hL : "Last Changed Date: ".toList = L
  have hRl : R.length = 10 := by rw [← hR]; rfl
  have hLl : L.length = 19 := by rw [← hL]; rfl
  have hRn : '\n' ∉ R := by rw [← hR]; decide
  have hnpos : npos = 18446744073709551615 := by norm_num [npos, SIZE_RANGE]
  have hw18 : wadd npos 19 = 18 := by
    norm_num [wadd, SIZE_RANGE, npos]
  -- when it throws
  have hiff : GetRevision buffer = none ↔
      (∃ x y, buffer = x ++ R ++ y) ∧ buffer.length < 18 := by
    by_cases hcont : ∃ x y, buffer = x ++ R ++ y
    · obtain ⟨x, y, hs⟩ := hcont
      have hfit := rfind_fits buffer R x y hs
      have hne : rfind buffer R ≠ npos := by omega
      have hw1 : wadd (rfind buffer R) 10 = rfind buffer R + 10 := by
        simp only [wadd, SIZE_RANGE]
        omega
      have hsub1 : ∀ c, substr buffer (rfind buffer R + 10) c
          = some ((buffer.drop (rfind buffer R + 10)).take c) := by
        intro c
        unfold substr
        rw [if_neg (by omega)]
      unfold GetRevision
      simp only [hR, hL, if_neg hne, hw1, hsub1]
      rcases find_fits buffer L (find buffer ['\n'] (rfind buffer R)) with hq | ⟨_, hq, _⟩
      · simp only [hq, hw18]
        unfold substr
        by_cases hshort : buffer.length < 18
        · simp only [if_pos hshort, true_iff]
          exact ⟨⟨x, y, hs⟩, hshort⟩
        · simp only [if_neg hshort]
          constructor
          · intro h
            cases h
          · intro h
            exact absurd h.2 hshort
      · have hw2 : wadd (find buffer L (find buffer ['\n'] (rfind buffer R))) 19
            = find buffer L (find buffer ['\n'] (rfind buffer R)) + 19 := by
          simp only [wadd, SIZE_RANGE]
          omega
        simp only [hw2]
        unfold substr
        rw [if_neg (by omega)]
        constructor
        · intro h
          cases h
        · intro h
          omega
    · have habs : rfind buffer R = npos :=
        rfind_absent buffer R (fun x y h => hcont ⟨x, y, h⟩)
      unfold GetRevision
      simp only [hR, habs, if_true]
      constructor
      · intro h
        cases h
      · intro h
        exact absurd h.1 hcont
  refine ⟨hiff, ?_, ?_⟩
  · intro hnot
    cases hg : GetRevision buffer with
    | none => exact absurd (hiff.1 hg) hnot
    | some result => exact ⟨result, rfl⟩
  · intro a y hs hlast hfollow h18
    have hslen : buffer.length = a.length + 10 + y.length := by
      rw [hs]
      simp only [List.length_append, hRl]
    have h1 : rfind buffer R = a.length := by
      rw [hs]
      exact rfind_at a y R (fun x' y' h => hlast x' y' (by rw [hs, h]))
    have hne : a.length ≠ npos := by omega
    have hw1 : wadd a.length 10 = a.length + 10 := by
      simp only [wadd, SIZE_RANGE]
      omega
    -- the revision part
    have hdropa : (buffer.drop a.length).take 10 = R := by
      rw [hs, List.append_assoc, List.drop_left, ← hRl, List.take_left]
    have hskip : find buffer ['\n'] a.length = find buffer ['\n'] (a.length + 10) :=
      find_skip buffer '\n' a.length 10 (by omega) (by rw [hdropa]; exact hRn)
    have hdropy : buffer.drop (a.length + 10) = y := by
      have : a.length + 10 = (a ++ R).length := by simp [hRl]
      rw [hs, this, List.drop_left]
    have hbound : find buffer ['\n'] (a.length + 10) = npos ∨
        (a.length + 10 ≤ find buffer ['\n'] (a.length + 10) ∧
          find buffer ['\n'] (a.length + 10) < buffer.length) := by
      rcases find_fits buffer ['\n'] (a.length + 10) with h | ⟨h, h', _⟩
      · exact Or.inl h
      · right
        simp only [List.length_singleton] at h'
        omega
    have hcount : wsub (wsub (find buffer ['\n'] (a.length + 10)) a.length) 10
        = wsub (find buffer ['\n'] (a.length + 10)) (a.length + 10) := by
      simp only [wsub, SIZE_RANGE]
      omega
    have hrev : substr buffer (a.length + 10)
        (wsub (wsub (find buffer ['\n'] (a.length + 10)) a.length) 10)
        = some (y.takeWhile (· != '\n')) := by
      rw [hcount, substr_until buffer '\n' (a.length + 10) (by omega) hsize, hdropy]
    -- no date label is found
    have hnoL : find buffer L (find buffer ['\n'] (a.length + 10)) = npos := by
      rcases hbound with hb | ⟨hb, _⟩
      · rw [hb]
        unfold find
        rw [if_pos hsize]
      · rcases find_fits buffer L (find buffer ['\n'] (a.length + 10)) with
          h | ⟨hle, _, x', y', hs', hx'⟩
        · exact h
        · have := hfollow x' y' hs'
          omega
    -- the date part
    have hbound' : find buffer [' '] 18 = npos ∨ find buffer [' '] 18 < buffer.length := by
      rcases find_fits buffer [' '] 18 with h | ⟨_, h', _⟩
      · exact Or.inl h
      · right
        simp only [List.length_singleton] at h'
        omega
    have hcount' : wsub (wsub (find buffer [' '] 18) npos) 19
        = wsub (find buffer [' '] 18) 18 := by
      simp only [wsub, SIZE_RANGE, hnpos]
      omega
    have hdate : substr buffer 18 (wsub (wsub (find buffer [' '] 18) npos) 19)
        = some ((buffer.drop 18).takeWhile (· != ' ')) := by
      rw [hcount', substr_until buffer ' ' 18 h18 hsize]
    unfold GetRevision
    simp only [hR, hL, h1, if_neg hne, hw1, hskip, hrev, hnoL, hw18, hdate]

/-- The example of the claim, 13 characters with the label, throws; a buffer of 29
characters with the label and no date label gives the text from index 18 to the next
space as the date part. -/
theorem GetRevision_out_of_range_witness :
    GetRevision "Revision: 42\n".toList = none ∧
    GetRevision "Revision: 42\nNode Kind: file\n".toList = some "42 (Kind:)".toList :=
  ⟨(GetRevision_out_of_range "Revision: 42\n".toList (by decide)).1.2
      ⟨⟨[], "42\n".toList, rfl⟩, by decide⟩,
    (GetRevision_out_of_range "Revision: 42\nNode Kind: file\n".toList (by decide)).2.2
      [] "42\nNode Kind: file\n".toList rfl
      (fun x y h => by
        obtain ⟨hl, hp⟩ := occurs_drop _ _ x y h
        have key : ∀ j, j ≤ 29 → "Revision: ".toList.isPrefixOf
            (("Revision: 42\nNode Kind: file\n".toList).drop j) = true → j ≤ 0 := by decide
        exact key x.length (le_trans hl (by decide)) hp)
      (fun x y h => by
        obtain ⟨hl, hp⟩ := occurs_drop _ _ x y h
        have key : ∀ j, j ≤ 29 → "Last Changed Date: ".toList.isPrefixOf
            (("Revision: 42\nNode Kind: file\n".toList).drop j) = true → j < 10 := by decide
        exact key x.length (le_trans hl (by decide)) hp)
      (by decide)⟩
end boss
